import Mathlib

/-!
Shallow embedding of `src/dvw-merger.py`, a tool that merges detailed
volleyball serve/reception codes from an annotated `.dvw` file into a
skeleton `.dvw` file.

Modelling conventions:
* A file is a list of lines, each line a `List Char` exactly as Python's
  file iteration yields it (terminating `'\n'` included, except possibly
  on the last line).  Python never yields an empty-string line, so
  theorems about file contents may assume lines are nonempty.
* `print(s)` (redirected into the output file by `fileinput`) appends the
  payload `s` to an output list; the physical file is the payloads each
  followed by `'\n'`.
* Diagnostics written to `stderr` ("Uh oh ..." messages) are counted; the
  informational change log (`<`/`>` lines) is not modelled.
* An unhandled Python exception (e.g. `re.error` from a bad replacement
  template) is modelled by `Option`: `none` means the function raised.
-/

set_option autoImplicit false
set_option maxRecDepth 8000

namespace DvwMerger

/-- A line of a file, as Python's file iteration yields it. -/
abbrev Line := List Char

/-- A captured code prefix (`group(1)` of one of the two patterns). -/
abbrev Code := List Char

/-- One element of the extractor's output: a serve code together with an
optional reception code (`None` in Python, `none` here). -/
abbrev CodePair := Code × Option Code

/-- ASCII digit test, the `[0-9]` character class of the patterns. -/
def isAsciiDigit (c : Char) : Bool := '0' ≤ c && c ≤ '9'

/-- The common shape of `PATTERN_SERVE = ^([*a][0-9]{2}S[^;]*)` and
`PATTERN_RECEPTION = ^([*a][0-9]{2}R[^;]*)`, parameterised by the
discriminator letter (`'S'` or `'R'`).  `search` on an unanchored
position can never satisfy `^` (the patterns are not multiline), so a
match exists only at the start of the string; `[^;]*` is greedy, so the
captured group extends to the first `';'` (or the end of the string —
including a trailing `'\n'`, since `[^;]` matches newline).  Returns the
captured group together with the remainder of the string. -/
def matchCode (discr : Char) : Line → Option (Code × Line)
  | c0 :: c1 :: c2 :: c3 :: rest =>
    if (c0 = '*' ∨ c0 = 'a') ∧ isAsciiDigit c1 ∧ isAsciiDigit c2 ∧ c3 = discr then
      some (c0 :: c1 :: c2 :: c3 :: rest.takeWhile (· ≠ ';'), rest.dropWhile (· ≠ ';'))
    else none
  | _ => none

/-- The characters removed by Python's `str.rstrip()` (ASCII whitespace;
the DVW format is ASCII, so the additional Unicode whitespace stripped by
Python does not arise). -/
def pyIsSpace (c : Char) : Bool :=
  c = ' ' || c = '\t' || c = '\n' || c = '\r' || c = '\x0b' || c = '\x0c'

/-- Python's `line.rstrip()`: drop trailing whitespace. -/
def rstrip (l : Line) : Line := (l.reverse.dropWhile pyIsSpace).reverse

/-- Octal digit test, used by replacement-template escapes. -/
def isOctDigit (c : Char) : Bool := '0' ≤ c && c ≤ '7'

/-- Numeric value of an ASCII digit. -/
def digitVal (c : Char) : Nat := c.toNat - '0'.toNat

/-- Decimal value of a digit string. -/
def digitsVal (l : List Char) : Nat := l.foldl (fun n c => 10 * n + digitVal c) 0

/-- Python `re.sub` does not insert the replacement string verbatim: it is
parsed as a replacement template (`sre_parse.parse_template`).  This
models that parsing for a pattern with exactly one group whose capture
equals the whole match (true of both patterns here): `g` is the captured
group.  `\\`, `\a`, `\b`, `\f`, `\n`, `\r`, `\t`, `\v` are character
escapes; `\0` (plus up to two octal digits) and `\ooo` (three octal
digits) are octal escapes; `\1` (and `\g<0>`, `\g<1>`) insert the group;
other group numbers are invalid for this pattern; unknown escapes of
ASCII letters, malformed `\g`, and a trailing backslash raise `re.error`
(modelled as `none`); unknown escapes of other characters are left
alone.

The `fuel` parameter only makes the recursion structural (each step
consumes at least one template character, so any `fuel` exceeding the
template length gives the same value); `expandTemplate` below supplies
it. -/
def expandTemplateF (g : Code) : Nat → List Char → Option (List Char)
  | 0, _ => none
  | _ + 1, [] => some []
  | fuel + 1, ch :: rest =>
    if ch ≠ '\\' then (expandTemplateF g fuel rest).map (ch :: ·)
    else
    match rest with
    | [] => none
    | c :: rest' =>
      if c = '\\' then (expandTemplateF g fuel rest').map ('\\' :: ·)
      else if c = 'a' then (expandTemplateF g fuel rest').map ('\x07' :: ·)
      else if c = 'b' then (expandTemplateF g fuel rest').map ('\x08' :: ·)
      else if c = 'f' then (expandTemplateF g fuel rest').map ('\x0c' :: ·)
      else if c = 'n' then (expandTemplateF g fuel rest').map ('\n' :: ·)
      else if c = 'r' then (expandTemplateF g fuel rest').map ('\r' :: ·)
      else if c = 't' then (expandTemplateF g fuel rest').map ('\t' :: ·)
      else if c = 'v' then (expandTemplateF g fuel rest').map ('\x0b' :: ·)
      else if c = 'g' then
        match rest' with
        | '<' :: rest2 =>
          let name := rest2.takeWhile (· ≠ '>')
          match rest2.dropWhile (· ≠ '>') with
          | '>' :: rest3 =>
            if name ≠ [] ∧ name.all isAsciiDigit then
              if digitsVal name ≤ 1 then (expandTemplateF g fuel rest3).map (g ++ ·)
              else none
            else none
          | _ => none
        | _ => none
      else if c = '0' then
        match rest' with
        | d1 :: d2 :: rest2 =>
          if isOctDigit d1 ∧ isOctDigit d2 then
            (expandTemplateF g fuel rest2).map (Char.ofNat (8 * digitVal d1 + digitVal d2) :: ·)
          else if isOctDigit d1 then
            (expandTemplateF g fuel (d2 :: rest2)).map (Char.ofNat (digitVal d1) :: ·)
          else (expandTemplateF g fuel (d1 :: d2 :: rest2)).map ('\x00' :: ·)
        | [d1] =>
          if isOctDigit d1 then some [Char.ofNat (digitVal d1)]
          else (expandTemplateF g fuel [d1]).map ('\x00' :: ·)
        | [] => some ['\x00']
      else if isAsciiDigit c then
        match rest' with
        | d2 :: rest2 =>
          if isAsciiDigit d2 then
            match rest2 with
            | d3 :: rest3 =>
              if isOctDigit c ∧ isOctDigit d2 ∧ isOctDigit d3 then
                (expandTemplateF g fuel rest3).map
                  (Char.ofNat (64 * digitVal c + 8 * digitVal d2 + digitVal d3) :: ·)
              else none
            | [] => none
          else if c = '1' then (expandTemplateF g fuel (d2 :: rest2)).map (g ++ ·)
          else none
        | [] => if c = '1' then some g else none
      else if c.isAlpha then none
      else (expandTemplateF g fuel rest').map (fun t => '\\' :: c :: t)

/-- Template expansion with enough fuel for the whole template. -/
def expandTemplate (g : Code) (t : List Char) : Option (List Char) :=
  expandTemplateF g (t.length + 1) t

/-- `re.sub(pattern, repl, s)` for the anchored patterns: the pattern can
match only at position 0, so at most one substitution happens, with the
replacement template expanded against the match.  `none` models the
`re.error` Python raises on a malformed template. -/
def reSubCode (discr : Char) (repl : Code) (s : Line) : Option Line :=
  match matchCode discr s with
  | none => some s
  | some (pre, suf) => (expandTemplate pre repl).map (· ++ suf)

/-- Python truthiness of an `Optional[str]`: `None` and `""` are falsy. -/
def truthyOpt : Option Code → Bool
  | none => false
  | some c => !c.isEmpty

/-- Python truthiness of the held `line` variable in `merge` (either a
string or `None`). -/
def truthyLine : Option Line → Bool
  | none => false
  | some l => !l.isEmpty

/-- Python truthiness of the `line_number` argument (an `int` or `None`);
`0` is falsy. -/
def truthyNat : Option Nat → Bool
  | none => false
  | some n => n ≠ 0

/-- One line of `get_verbose_service_codes`'s loop: `acc` is the list
built so far, `d` the number of diagnostics printed to stderr.  A serve
match appends `(code, None)`; otherwise a reception match either updates
the last pair's reception slot or — when the list is empty or that slot
is already truthy — prints the "reception code before service code"
diagnostic and leaves the list unchanged; other lines are ignored. -/
def extractStep (acc : List CodePair) (d : Nat) (l : Line) : List CodePair × Nat :=
  match matchCode 'S' l with
  | some (code, _) => (acc ++ [(code, none)], d)
  | none =>
    match matchCode 'R' l with
    | some (code, _) =>
      if acc = [] ∨ truthyOpt ((acc.getLast?.getD ([], none)).2) then (acc, d + 1)
      else (acc.dropLast ++ [((acc.getLast?.getD ([], none)).1, some code)], d)
    | none => (acc, d)

/-- The whole extraction loop over the file's lines. -/
def extractAux (acc : List CodePair) (d : Nat) : List Line → List CodePair × Nat
  | [] => (acc, d)
  | l :: ls =>
    let s := extractStep acc d l
    extractAux s.1 s.2 ls

/-- `get_verbose_service_codes`: the pair list extracted from a file. -/
def get_verbose_service_codes (lines : List Line) : List CodePair :=
  (extractAux [] 0 lines).1

/-- Diagnostics printed to stderr during extraction. -/
def extractDiags (lines : List Line) : Nat := (extractAux [] 0 lines).2

/-- Result of the inner `while serve_result := PATTERN_SERVE.search(line)`
loop of `merge`: the output payloads printed so far, the stderr
diagnostic count, the pair cursor `index`, the held `line` variable when
the loop exits (`none` when `next(f, None)` returned `None`), the number
of lines the loop consumed from the iterator beyond the line it was
entered with, and the `is_reception_substituted` flag. -/
structure InnerRes where
  outs : List Line
  errs : Nat
  index : Nat
  held : Option Line
  consumed : Nat
  flag : Bool
  deriving Repr, DecidableEq

/-- The inner substitution loop of `merge`.  `line` is the line the loop
currently holds; `rest` is the not-yet-consumed remainder of the file
iterator.  Mirrors the Python control flow: a non-serve line exits at
once; an exhausted pair list prints a diagnostic and breaks; otherwise
the serve prefix of the rstripped line is substituted (via the
replacement template) and printed, the next line is taken from the
iterator (`None` at end of file breaks *before* `index` is incremented),
a reception match with a truthy reception code is substituted and
printed, `index` is incremented, and the loop re-examines the new held
line. -/
def mergeInner (codes : List CodePair) (index errs : Nat) (flag : Bool)
    (outs : List Line) (line : Line) : (rest : List Line) → Option InnerRes := fun rest =>
  if (matchCode 'S' line).isSome then
    if index = codes.length then
      some ⟨outs, errs + 1, index, some line, 0, flag⟩
    else
      match codes[index]? with
      | none => none
      | some pr =>
        match reSubCode 'S' pr.1 (rstrip line) with
        | none => none
        | some newServe =>
          match rest with
          | [] => some ⟨outs ++ [newServe], errs, index, none, 0, flag⟩
          | m :: rest' =>
            if m.isEmpty then
              some ⟨outs ++ [newServe], errs, index, some m, 1, flag⟩
            else
              match matchCode 'R' (rstrip m) with
              | some _ =>
                if truthyOpt pr.2 then
                  match reSubCode 'R' (pr.2.getD []) (rstrip m) with
                  | none => none
                  | some newRec =>
                    (mergeInner codes (index + 1) errs true
                        (outs ++ [newServe, newRec]) m rest').map
                      (fun r => { r with consumed := r.consumed + 1 })
                else
                  (mergeInner codes (index + 1) errs flag
                      (outs ++ [newServe]) m rest').map
                    (fun r => { r with consumed := r.consumed + 1 })
              | none =>
                (mergeInner codes (index + 1) errs flag
                    (outs ++ [newServe]) m rest').map
                  (fun r => { r with consumed := r.consumed + 1 })
  else
    some ⟨outs, errs, index, some line, 0, flag⟩
termination_by rest => rest.length
decreasing_by all_goals simp_arith [List.length_cons]

/-- The outer `for line in f` loop of `merge`.  `cur` is `current_line`
(incremented once per outer iteration — lines consumed by the inner loop
do not increment it).  While `line_number` is truthy and `current_line`
is below it, lines are rstripped and printed unchanged.  Otherwise the
inner loop runs; afterwards, if the held line is truthy and no reception
substitution was recorded, the held line is rstripped and printed. -/
def mergeOuter (codes : List CodePair) (lineNumber : Option Nat) :
    Nat → Nat → Nat → List Line → (lines : List Line) → Option (List Line × Nat × Nat)
  | index, errs, _, outs, [] => some (outs, errs, index)
  | index, errs, cur, outs, line :: rest =>
    if truthyNat lineNumber ∧ cur + 1 < lineNumber.getD 0 then
      mergeOuter codes lineNumber index errs (cur + 1) (outs ++ [rstrip line]) rest
    else
      match mergeInner codes index errs false outs line rest with
      | none => none
      | some r =>
        let outs' :=
          if truthyLine r.held ∧ r.flag = false then r.outs ++ [rstrip (r.held.getD [])]
          else r.outs
        mergeOuter codes lineNumber r.index r.errs (cur + 1) outs' (rest.drop r.consumed)
termination_by _ _ _ _ lines => lines.length
decreasing_by
  · simp_arith [List.length_cons]
  · simp only [List.length_cons, List.length_drop]
    omega

/-- `merge(service_codes, file_input, line_number)`: run the rewrite over
the file's lines.  The result is `(output payloads, stderr diagnostic
count, final pair cursor)`; `none` models an unhandled exception (a
malformed replacement template).  The Python function's `return True` is
modelled by `mergeReturn`. -/
def merge (codes : List CodePair) (lines : List Line) (lineNumber : Option Nat) :
    Option (List Line × Nat × Nat) :=
  mergeOuter codes lineNumber 0 0 0 [] lines

/-- The boolean `merge` returns: `True` whenever it returns at all. -/
def mergeReturn (codes : List CodePair) (lines : List Line) (lineNumber : Option Nat) :
    Option Bool :=
  (merge codes lines lineNumber).map (fun _ => true)

/-! ### Path validation (`is_dvw_file`) and the main script

The filesystem is abstracted by the kind of object a path names; this is
all `os.path.exists` / `os.path.isdir` can observe here.  `special`
covers objects that exist and are neither directories nor regular files
(FIFOs, sockets, device nodes). -/

/-- What a path names on the filesystem. -/
inductive FileKind
  | absent
  | directory
  | regular
  | special
  deriving DecidableEq, Repr

/-- `os.path.exists`. -/
def pathExists (k : FileKind) : Bool := k ≠ FileKind.absent

/-- `os.path.isdir`. -/
def isDirKind (k : FileKind) : Bool := k = FileKind.directory

/-- Whether the path names a regular file (what the spec's validation
sentence asks for; the script itself never checks this). -/
def isRegularFile (k : FileKind) : Bool := k = FileKind.regular

/-- `FILE_EXTENSION_DVW = '.dvw'`. -/
def FILE_EXTENSION_DVW : List Char := ['.', 'd', 'v', 'w']

/-- Python `file_input.endswith(FILE_EXTENSION_DVW)`. -/
def endsWithDvw (p : List Char) : Bool := List.isSuffixOf FILE_EXTENSION_DVW p

/-- `is_dvw_file`, with its three early returns. -/
def is_dvw_file (kind : FileKind) (path : List Char) : Bool :=
  if ¬pathExists kind then false
  else if isDirKind kind then false
  else if ¬endsWithDvw path then false
  else true

/-- What a run of the main script does after argument parsing. -/
inductive RunOutcome
  | exitedInvalidInput
  | exitedInvalidServe
  | merged (result : Option (List Line × Nat × Nat))
  deriving DecidableEq

/-- The main script after `args` are available: validate `input`, then
validate `--serve-codes`, quitting (with a message) on the first failure
— before the target file is touched; only then extract and merge. -/
def runMain (inputKind serveKind : FileKind) (inputPath servePath : List Char)
    (serveLines targetLines : List Line) (lineNumber : Option Nat) : RunOutcome :=
  if ¬is_dvw_file inputKind inputPath then .exitedInvalidInput
  else if ¬is_dvw_file serveKind servePath then .exitedInvalidServe
  else .merged (merge (get_verbose_service_codes serveLines) targetLines lineNumber)

/-! ### Specification-side vocabulary

The definitions below are not translations of program code; they are the
vocabulary in which the claims are stated: classifying lines by which
pattern they match, describing file structure (adjacency of reception
lines to serve lines, the serve/reception pattern sequence), and
describing outputs. -/

/-- Which of the two patterns a line matches (serve is tried first, as in
the program; the two cannot both match since they disagree on the fourth
character). -/
inductive LineKind
  | serve
  | reception
  | other
  deriving DecidableEq, Repr

/-- Classify a raw line. -/
def kindOf (l : Line) : LineKind :=
  if (matchCode 'S' l).isSome then .serve
  else if (matchCode 'R' l).isSome then .reception
  else .other

/-- The captured group of a pattern match, defaulting to `[]`. -/
def codeOf (discr : Char) (l : Line) : Code := ((matchCode discr l).getD ([], [])).1

/-- The part of a line after the captured group, assuming the line
matches: everything from the first `';'` at or after position 4 on. -/
def sufCode (l : Line) : Line := (l.drop 4).dropWhile (· ≠ ';')

/-- Every reception-pattern line immediately follows a serve-pattern
line, and no serve line is followed by two reception lines.  The flag
records whether the previous line was a serve line (not yet followed by
a reception line). -/
def adjOK (prevServe : Bool) : List Line → Bool
  | [] => true
  | l :: rest =>
    match kindOf l with
    | .reception => prevServe && adjOK false rest
    | .serve => adjOK true rest
    | .other => adjOK false rest

/-- The sequence of serve/reception pattern lines of a file, junk lines
removed. -/
def shape (lines : List Line) : List LineKind :=
  (lines.map kindOf).filter (· ≠ LineKind.other)

/-- The pattern-line sequence a pair list describes: a serve for each
pair, followed by a reception when the reception slot is present. -/
def pairsShape (ps : List CodePair) : List LineKind :=
  (ps.map (fun p =>
    LineKind.serve :: (match p.2 with | some _ => [LineKind.reception] | none => []))).flatten

/-- What extraction computes on a file whose reception lines all
immediately follow serve lines: serve/adjacent-reception pairs in file
order. -/
def extractSpec : List Line → List CodePair
  | [] => []
  | l :: rest =>
    if kindOf l = .serve then
      match rest with
      | r :: rest' =>
        if kindOf r = .reception then (codeOf 'S' l, some (codeOf 'R' r)) :: extractSpec rest'
        else (codeOf 'S' l, none) :: extractSpec (r :: rest')
      | [] => [(codeOf 'S' l, none)]
    else extractSpec rest
termination_by lines => lines.length
decreasing_by all_goals simp_arith [List.length_cons]

/-- A skeleton file is ready for a pair list when its pattern lines match
the pairs one for one: junk lines anywhere, each pair's serve line in
order, with a reception line immediately following exactly when the pair
carries a (nonempty) reception code. -/
inductive Ready : List CodePair → List Line → Prop
  | nil : Ready [] []
  | junk {b : Line} {p : List CodePair} {B : List Line} :
      kindOf b = .other → b ≠ [] → Ready p B → Ready p (b :: B)
  | serveNone {s : Line} {cs : Code} {p : List CodePair} {B : List Line} :
      kindOf s = .serve → (∀ m ∈ B.head?, kindOf m ≠ .reception) → Ready p B →
      Ready ((cs, none) :: p) (s :: B)
  | serveRec {s r : Line} {cs cr : Code} {p : List CodePair} {B : List Line} :
      kindOf s = .serve → kindOf r = .reception → cr ≠ [] → Ready p B →
      Ready ((cs, some cr) :: p) (s :: r :: B)

/-- The output `merge` produces on a ready skeleton: junk lines are
rstripped, serve lines get the pair's serve code spliced onto their
suffix, adjacent reception lines likewise when the pair has a reception
code. -/
def expectedOut : List CodePair → List Line → List Line
  | _, [] => []
  | p, b :: B =>
    if kindOf b = .serve then
      match p with
      | [] => rstrip b :: expectedOut [] B
      | (cs, ro) :: p' =>
        match B, ro with
        | r :: B', some cr =>
          if kindOf r = .reception then
            (cs ++ sufCode (rstrip b)) :: (cr ++ sufCode (rstrip r)) :: expectedOut p' B'
          else (cs ++ sufCode (rstrip b)) :: expectedOut p' (r :: B')
        | r :: B', none => (cs ++ sufCode (rstrip b)) :: expectedOut p' (r :: B')
        | [], _ => [cs ++ sufCode (rstrip b)]
    else rstrip b :: expectedOut p B
termination_by p lines => p.length + lines.length
decreasing_by all_goals simp_arith [List.length_cons]

/-- `c` is one of the codes (serve or reception) of the pair list. -/
def codeIn (codes : List CodePair) (c : Code) : Prop :=
  ∃ pr ∈ codes, pr.1 = c ∨ pr.2 = some c

/-- How a single output line may relate to the input line it was printed
for: either the rstripped original, or one of the pair list's codes
spliced onto the rstripped original's suffix. -/
def LineOut (codes : List CodePair) (l out : Line) : Prop :=
  out = rstrip l ∨ ∃ c, codeIn codes c ∧ out = c ++ sufCode (rstrip l)

/-- `LineOut`, refined: a line matching neither pattern can only be the
rstripped original. -/
def LineOutK (codes : List CodePair) (l out : Line) : Prop :=
  (kindOf l = .other → out = rstrip l) ∧ LineOut codes l out

/-- No code of the pair list contains a backslash, so each is its own
replacement template. -/
def BackslashFree (codes : List CodePair) : Prop :=
  ∀ pr ∈ codes, ('\\' ∉ pr.1) ∧ ∀ c, pr.2 = some c → '\\' ∉ c

/-- A pair as extraction produces it: each code is a full capture of its
own pattern (so in particular nonempty, `[*a]`, two digits, the
discriminator, then `';'`-free characters). -/
def PairWf (pr : CodePair) : Prop :=
  matchCode 'S' pr.1 = some (pr.1, []) ∧ ∀ c, pr.2 = some c → matchCode 'R' c = some (c, [])

/-! ### Basic lemmas: the patterns, `rstrip`, replacement templates -/

theorem matchCode_cons₄ {c0 c1 c2 : Char} {d : Char} {rest : Line}
    (h0 : c0 = '*' ∨ c0 = 'a') (h1 : isAsciiDigit c1) (h2 : isAsciiDigit c2) :
    matchCode d (c0 :: c1 :: c2 :: d :: rest) =
      some (c0 :: c1 :: c2 :: d :: rest.takeWhile (· ≠ ';'), rest.dropWhile (· ≠ ';')) := by
  simp [matchCode, h0, h1, h2]

theorem matchCode_some_elim {d : Char} {l : Line} {p s : Line}
    (h : matchCode d l = some (p, s)) :
    ∃ c0 c1 c2 rest, l = c0 :: c1 :: c2 :: d :: rest ∧
      (c0 = '*' ∨ c0 = 'a') ∧ isAsciiDigit c1 = true ∧ isAsciiDigit c2 = true ∧
      p = c0 :: c1 :: c2 :: d :: rest.takeWhile (· ≠ ';') ∧
      s = rest.dropWhile (· ≠ ';') := by
  match l with
  | [] => simp [matchCode] at h
  | [c0] => simp [matchCode] at h
  | [c0, c1] => simp [matchCode] at h
  | [c0, c1, c2] => simp [matchCode] at h
  | c0 :: c1 :: c2 :: c3 :: rest =>
    simp only [matchCode] at h
    split at h
    · rename_i hc
      obtain ⟨hc0, hc1, hc2, hc3⟩ := hc
      subst hc3
      rw [Option.some.injEq, Prod.mk.injEq] at h
      exact ⟨c0, c1, c2, rest, rfl, hc0, hc1, hc2, h.1.symm, h.2.symm⟩
    · exact absurd h (by simp)

theorem matchCode_isSome_elim {d : Char} {l : Line} (h : (matchCode d l).isSome) :
    ∃ c0 c1 c2 rest, l = c0 :: c1 :: c2 :: d :: rest ∧
      (c0 = '*' ∨ c0 = 'a') ∧ isAsciiDigit c1 = true ∧ isAsciiDigit c2 = true := by
  obtain ⟨⟨p, s⟩, hps⟩ := Option.isSome_iff_exists.mp h
  obtain ⟨c0, c1, c2, rest, hl, h0, h1, h2, -, -⟩ := matchCode_some_elim hps
  exact ⟨c0, c1, c2, rest, hl, h0, h1, h2⟩

/-- The two patterns disagree on the fourth character, so no line matches
both. -/
theorem matchCode_disjoint {d d' : Char} {l : Line} (h : (matchCode d l).isSome)
    (hne : d' ≠ d) : matchCode d' l = none := by
  obtain ⟨c0, c1, c2, rest, hl, -, -, -⟩ := matchCode_isSome_elim h
  subst hl
  simp [matchCode, hne.symm]

theorem rstrip_nil : rstrip [] = [] := rfl

/-- A line is its rstripped form followed by trailing whitespace. -/
theorem rstrip_append (l : Line) :
    ∃ t, l = rstrip l ++ t ∧ ∀ c ∈ t, pyIsSpace c = true := by
  refine ⟨(l.reverse.takeWhile pyIsSpace).reverse, ?_, ?_⟩
  · calc l = l.reverse.reverse := l.reverse_reverse.symm
    _ = (l.reverse.takeWhile pyIsSpace ++ l.reverse.dropWhile pyIsSpace).reverse := by
        rw [List.takeWhile_append_dropWhile]
    _ = (l.reverse.dropWhile pyIsSpace).reverse ++ (l.reverse.takeWhile pyIsSpace).reverse := by
        rw [List.reverse_append]
    _ = rstrip l ++ (l.reverse.takeWhile pyIsSpace).reverse := rfl
  · intro c hc
    rw [List.mem_reverse] at hc
    exact List.mem_takeWhile_imp hc

/-- `rstrip` does not touch the first four characters when the fourth is
not whitespace. -/
theorem rstrip_cons₄ {c0 c1 c2 d : Char} {rest : Line} (hd : pyIsSpace d = false) :
    rstrip (c0 :: c1 :: c2 :: d :: rest) = c0 :: c1 :: c2 :: d :: rstrip rest := by
  show ((c0 :: c1 :: c2 :: d :: rest).reverse.dropWhile pyIsSpace).reverse = _
  have hrev : (c0 :: c1 :: c2 :: d :: rest).reverse = rest.reverse ++ [d, c2, c1, c0] := by
    simp
  rw [hrev, List.dropWhile_append]
  by_cases h : (rest.reverse.dropWhile pyIsSpace).isEmpty
  · simp only [h, if_pos]
    have : rstrip rest = [] := by
      simpa [rstrip, List.isEmpty_iff] using h
    simp [List.dropWhile, hd, this]
  · simp only [h, if_neg, Bool.false_eq_true, not_false_iff]
    simp [rstrip]

/-- If a line matches, its rstripped form matches as well, and the part
after the match of the rstripped line is `sufCode` of the rstripped
line. -/
theorem matchCode_rstrip {d : Char} {l : Line} (hd : pyIsSpace d = false)
    (h : (matchCode d l).isSome) :
    ∃ p, matchCode d (rstrip l) = some (p, sufCode (rstrip l)) := by
  obtain ⟨c0, c1, c2, rest, hl, h0, h1, h2⟩ := matchCode_isSome_elim h
  subst hl
  rw [rstrip_cons₄ hd, matchCode_cons₄ h0 h1 h2]
  exact ⟨_, rfl⟩

/-- A match of the rstripped line lifts to a match of the raw line. -/
theorem matchCode_isSome_of_rstrip {d : Char} {l : Line}
    (h : (matchCode d (rstrip l)).isSome) : (matchCode d l).isSome := by
  obtain ⟨c0, c1, c2, rest, hl, h0, h1, h2⟩ := matchCode_isSome_elim h
  obtain ⟨t, ht, -⟩ := rstrip_append l
  rw [hl] at ht
  rw [ht, List.cons_append, List.cons_append, List.cons_append, List.cons_append,
    matchCode_cons₄ h0 h1 h2]
  rfl

/-- A reception match of the rstripped line rules out a serve match of
the raw line. -/
theorem matchS_none_of_rec_rstrip {m : Line} (h : (matchCode 'R' (rstrip m)).isSome) :
    matchCode 'S' m = none :=
  matchCode_disjoint (matchCode_isSome_of_rstrip h) (by decide)

theorem kindOf_serve_iff {l : Line} : kindOf l = .serve ↔ (matchCode 'S' l).isSome := by
  unfold kindOf
  constructor
  · intro h
    by_contra hs
    simp [hs] at h
    split at h <;> simp_all
  · intro h
    simp [h]

theorem kindOf_reception_iff {l : Line} : kindOf l = .reception ↔ (matchCode 'R' l).isSome := by
  unfold kindOf
  constructor
  · intro h
    split at h
    · simp_all
    · split at h <;> simp_all
  · intro h
    have hs : matchCode 'S' l = none := matchCode_disjoint h (by decide)
    simp [hs, h]

theorem kindOf_other_iff {l : Line} :
    kindOf l = .other ↔ matchCode 'S' l = none ∧ matchCode 'R' l = none := by
  unfold kindOf
  constructor
  · intro h
    split at h
    · simp_all
    · split at h <;> simp_all [Option.isSome_iff_ne_none]
  · intro ⟨h1, h2⟩
    simp [h1, h2]

/-- Pattern lines are at least four characters long. -/
theorem ne_nil_of_kind_serve {l : Line} (h : kindOf l = .serve) : l ≠ [] := by
  obtain ⟨c0, c1, c2, rest, hl, -⟩ := matchCode_isSome_elim (kindOf_serve_iff.mp h)
  subst hl; simp

theorem ne_nil_of_kind_reception {l : Line} (h : kindOf l = .reception) : l ≠ [] := by
  obtain ⟨c0, c1, c2, rest, hl, -⟩ := matchCode_isSome_elim (kindOf_reception_iff.mp h)
  subst hl; simp

/-- `rstrip` does not change which pattern a line matches. -/
theorem kindOf_rstrip (l : Line) : kindOf (rstrip l) = kindOf l := by
  unfold kindOf
  by_cases hs : (matchCode 'S' l).isSome
  · obtain ⟨p, hp⟩ := matchCode_rstrip (by decide) hs
    simp [hs, hp]
  · have hs' : ¬(matchCode 'S' (rstrip l)).isSome := fun h => hs (matchCode_isSome_of_rstrip h)
    by_cases hr : (matchCode 'R' l).isSome
    · obtain ⟨p, hp⟩ := matchCode_rstrip (by decide) hr
      simp [hs, hs', hp, hr]
    · have hr' : ¬(matchCode 'R' (rstrip l)).isSome := fun h => hr (matchCode_isSome_of_rstrip h)
      simp [hs, hs', hr, hr']

/-- A backslash-free template expands to itself (with any sufficient
fuel). -/
theorem expandTemplateF_of_no_backslash {g : Code} :
    ∀ (fuel : Nat) (t : List Char), t.length < fuel → '\\' ∉ t →
      expandTemplateF g fuel t = some t := by
  intro fuel
  induction fuel with
  | zero => intro t hlen _; exact absurd hlen (by omega)
  | succ n ih =>
    intro t hlen hb
    match t with
    | [] => rfl
    | ch :: rest =>
      have hch : ch ≠ '\\' := fun e => hb (e ▸ List.mem_cons_self ch rest)
      have hrest : '\\' ∉ rest := fun hm => hb (List.mem_cons_of_mem _ hm)
      have hlen' : rest.length < n := by simpa using hlen
      simp [expandTemplateF, hch, ih rest hlen' hrest]

/-- A backslash-free replacement template expands to itself. -/
theorem expandTemplate_of_no_backslash {g : Code} {t : List Char} (h : '\\' ∉ t) :
    expandTemplate g t = some t :=
  expandTemplateF_of_no_backslash _ t (by omega) h

/-- `re.sub` with a match and a backslash-free replacement glues the
replacement onto the suffix. -/
theorem reSubCode_of_no_backslash {d : Char} {repl : Code} {s : Line} {p suf : Line}
    (hm : matchCode d s = some (p, suf)) (hb : '\\' ∉ repl) :
    reSubCode d repl s = some (repl ++ suf) := by
  simp [reSubCode, hm, expandTemplate_of_no_backslash hb]

/-! ### Step lemmas for the merge loops -/

/-- A non-serve line exits the inner loop immediately. -/
theorem mergeInner_not_serve {codes : List CodePair} {i e : Nat} {f : Bool}
    {outs : List Line} {line : Line} {rest : List Line} (h : matchCode 'S' line = none) :
    mergeInner codes i e f outs line rest = some ⟨outs, e, i, some line, 0, f⟩ := by
  simp [mergeInner, h]

/-- A serve line with the pair list exhausted: diagnostic, break, line
still held. -/
theorem mergeInner_exhausted {codes : List CodePair} {i e : Nat} {f : Bool}
    {outs : List Line} {line : Line} {rest : List Line}
    (h : (matchCode 'S' line).isSome) (hi : i = codes.length) :
    mergeInner codes i e f outs line rest = some ⟨outs, e + 1, i, some line, 0, f⟩ := by
  simp [mergeInner, h, hi]

/-- A serve line at end of file: substituted and printed, but the loop
breaks before `index` is incremented. -/
theorem mergeInner_serve_eof {codes : List CodePair} {i e : Nat} {f : Bool}
    {outs : List Line} {line : Line} {pr : CodePair} {ns : Line}
    (h : (matchCode 'S' line).isSome) (hi : ¬i = codes.length)
    (hpr : codes[i]? = some pr) (hsub : reSubCode 'S' pr.1 (rstrip line) = some ns) :
    mergeInner codes i e f outs line [] = some ⟨outs ++ [ns], e, i, none, 0, f⟩ := by
  simp [mergeInner, h, hi, hpr, hsub]

/-- A serve line whose successor is a reception line and whose pair has a
truthy reception code: both lines are substituted and printed, one line
is consumed, the flag is set, and the loop exits holding the reception
line (which cannot match the serve pattern). -/
theorem mergeInner_serve_rec {codes : List CodePair} {i e : Nat} {f : Bool}
    {outs : List Line} {line m : Line} {rest' : List Line} {pr : CodePair}
    {ns nr : Line} {rp : Code × Line}
    (h : (matchCode 'S' line).isSome) (hi : ¬i = codes.length)
    (hpr : codes[i]? = some pr) (hsub : reSubCode 'S' pr.1 (rstrip line) = some ns)
    (hm : m ≠ []) (hrec : matchCode 'R' (rstrip m) = some rp)
    (htr : truthyOpt pr.2 = true)
    (hsubr : reSubCode 'R' (pr.2.getD []) (rstrip m) = some nr) :
    mergeInner codes i e f outs line (m :: rest') =
      some ⟨outs ++ [ns, nr], e, i + 1, some m, 1, true⟩ := by
  have hmS : matchCode 'S' m = none := matchS_none_of_rec_rstrip (by simp [hrec])
  have : mergeInner codes (i + 1) e true (outs ++ [ns, nr]) m rest' =
      some ⟨outs ++ [ns, nr], e, i + 1, some m, 0, true⟩ := mergeInner_not_serve hmS
  simp [mergeInner, h, hi, hpr, hsub, hm, hrec, htr, hsubr, this]

/-- A serve line whose successor does not get a reception substitution
(no reception match, or no truthy reception code): the serve line is
substituted and printed, and the loop continues on the successor with the
cursor advanced. -/
theorem mergeInner_serve_step {codes : List CodePair} {i e : Nat} {f : Bool}
    {outs : List Line} {line m : Line} {rest' : List Line} {pr : CodePair} {ns : Line}
    (h : (matchCode 'S' line).isSome) (hi : ¬i = codes.length)
    (hpr : codes[i]? = some pr) (hsub : reSubCode 'S' pr.1 (rstrip line) = some ns)
    (hm : m ≠ [])
    (hnorec : matchCode 'R' (rstrip m) = none ∨ truthyOpt pr.2 = false) :
    mergeInner codes i e f outs line (m :: rest') =
      (mergeInner codes (i + 1) e f (outs ++ [ns]) m rest').map
        (fun r => { r with consumed := r.consumed + 1 }) := by
  conv_lhs => rw [mergeInner]
  rcases hnorec with hno | hno
  · simp [h, hi, hpr, hsub, hm, hno]
  · cases hrm : matchCode 'R' (rstrip m) with
    | none => simp [h, hi, hpr, hsub, hm, hrm]
    | some rp => simp [h, hi, hpr, hsub, hm, hrm, hno]

/-- The empty iterator ends the outer loop. -/
theorem mergeOuter_nil {codes : List CodePair} {ln : Option Nat} {i e c : Nat}
    {outs : List Line} : mergeOuter codes ln i e c outs [] = some (outs, e, i) := by
  simp [mergeOuter]

/-- A line in the pass-through region is rstripped and printed. -/
theorem mergeOuter_pass {codes : List CodePair} {ln : Option Nat} {i e c : Nat}
    {outs : List Line} {line : Line} {rest : List Line}
    (h : truthyNat ln = true ∧ c + 1 < ln.getD 0) :
    mergeOuter codes ln i e c outs (line :: rest) =
      mergeOuter codes ln i e (c + 1) (outs ++ [rstrip line]) rest := by
  simp [mergeOuter, h.1, h.2]

/-- The outer loop outside the pass-through region: run the inner loop,
then print the held line when it is truthy and no reception substitution
was recorded. -/
theorem mergeOuter_scan {codes : List CodePair} {ln : Option Nat} {i e c : Nat}
    {outs : List Line} {line : Line} {rest : List Line}
    (h : ¬(truthyNat ln = true ∧ c + 1 < ln.getD 0)) :
    mergeOuter codes ln i e c outs (line :: rest) =
      match mergeInner codes i e false outs line rest with
      | none => none
      | some r =>
        mergeOuter codes ln r.index r.errs (c + 1)
          (if truthyLine r.held ∧ r.flag = false then r.outs ++ [rstrip (r.held.getD [])]
           else r.outs)
          (rest.drop r.consumed) := by
  rw [mergeOuter]
  simp only [if_neg h]

/-- The part of a line after any successful match is `sufCode` of the
line. -/
theorem matchCode_snd {d : Char} {s p suf : Line} (h : matchCode d s = some (p, suf)) :
    suf = sufCode s := by
  obtain ⟨c0, c1, c2, rest, hs, -, -, -, -, hsuf⟩ := matchCode_some_elim h
  subst hs
  simpa [sufCode] using hsuf

theorem lineOutK_rstrip {codes : List CodePair} (l : Line) : LineOutK codes l (rstrip l) :=
  ⟨fun _ => rfl, Or.inl rfl⟩

theorem lineOutK_serve {codes : List CodePair} {l : Line} {pr : CodePair}
    (hl : (matchCode 'S' l).isSome) (hpr : pr ∈ codes) :
    LineOutK codes l (pr.1 ++ sufCode (rstrip l)) :=
  ⟨fun hk => absurd ((kindOf_serve_iff.mpr hl).symm.trans hk) (by decide),
   Or.inr ⟨pr.1, ⟨pr, hpr, Or.inl rfl⟩, rfl⟩⟩

theorem lineOutK_reception {codes : List CodePair} {l : Line} {pr : CodePair} {cr : Code}
    (hl : (matchCode 'R' (rstrip l)).isSome) (hpr : pr ∈ codes) (hcr : pr.2 = some cr) :
    LineOutK codes l (cr ++ sufCode (rstrip l)) :=
  have hR : (matchCode 'R' l).isSome := matchCode_isSome_of_rstrip hl
  ⟨fun hk => absurd ((kindOf_reception_iff.mpr hR).symm.trans hk) (by decide),
   Or.inr ⟨cr, ⟨pr, hpr, Or.inr hcr⟩, rfl⟩⟩

/-- Full specification of one run of the inner loop, entered with
`is_reception_substituted = false`, on backslash-free codes and nonempty
lines: it never raises, consumes at most the iterator, keeps the cursor
within bounds, and its printed lines account — via `LineOutK` — for the
entry line and every consumed line, except the held line, which is
accounted for only when the reception flag was set (otherwise the outer
loop prints it). -/
theorem mergeInner_spec {codes : List CodePair} (hb : BackslashFree codes) :
    ∀ (rest : List Line) (line : Line) (i e : Nat) (outs : List Line),
      line ≠ [] → (∀ m ∈ rest, m ≠ []) → i ≤ codes.length →
      ∃ r Δ, mergeInner codes i e false outs line rest = some r ∧
        r.outs = outs ++ Δ ∧ r.consumed ≤ rest.length ∧ r.index ≤ codes.length ∧
        ((r.held = none ∧
            List.Forall₂ (LineOutK codes) (line :: rest.take r.consumed) Δ) ∨
          ∃ hl, r.held = some hl ∧ hl ≠ [] ∧
            hl = (line :: rest.take r.consumed).getLast (by simp) ∧
            ((r.flag = true ∧
                List.Forall₂ (LineOutK codes) (line :: rest.take r.consumed) Δ) ∨
              (r.flag = false ∧
                List.Forall₂ (LineOutK codes) (line :: rest.take r.consumed).dropLast Δ))) := by
  intro rest
  induction rest with
  | nil =>
    intro line i e outs hline _ hi
    by_cases hS : (matchCode 'S' line).isSome
    · by_cases hiE : i = codes.length
      · exact ⟨⟨outs, e + 1, i, some line, 0, false⟩, [], mergeInner_exhausted hS hiE,
          by simp, Nat.le_refl _, hi,
          Or.inr ⟨line, rfl, hline, by simp, Or.inr ⟨rfl, by simp⟩⟩⟩
      · have hlt : i < codes.length := Nat.lt_of_le_of_ne hi hiE
        have hpr : codes[i]? = some codes[i] := List.getElem?_eq_getElem hlt
        have hmem : codes[i] ∈ codes := List.getElem_mem hlt
        obtain ⟨p, hmatch⟩ := matchCode_rstrip (by decide) hS
        have hsub := reSubCode_of_no_backslash hmatch (hb _ hmem).1
        exact ⟨⟨outs ++ [codes[i].1 ++ sufCode (rstrip line)], e, i, none, 0, false⟩,
          [codes[i].1 ++ sufCode (rstrip line)], mergeInner_serve_eof hS hiE hpr hsub,
          rfl, Nat.le_refl _, hi,
          Or.inl ⟨rfl, List.Forall₂.cons (lineOutK_serve hS hmem) List.Forall₂.nil⟩⟩
    · have hSn : matchCode 'S' line = none := Option.not_isSome_iff_eq_none.mp hS
      exact ⟨⟨outs, e, i, some line, 0, false⟩, [], mergeInner_not_serve hSn,
        by simp, Nat.le_refl _, hi,
        Or.inr ⟨line, rfl, hline, by simp, Or.inr ⟨rfl, by simp⟩⟩⟩
  | cons m rest' ih =>
    intro line i e outs hline hrest hi
    have hm : m ≠ [] := hrest m (List.mem_cons_self ..)
    have hrest' : ∀ x ∈ rest', x ≠ [] := fun x hx => hrest x (List.mem_cons_of_mem _ hx)
    by_cases hS : (matchCode 'S' line).isSome
    · by_cases hiE : i = codes.length
      · exact ⟨⟨outs, e + 1, i, some line, 0, false⟩, [], mergeInner_exhausted hS hiE,
          by simp, Nat.zero_le _, hi,
          Or.inr ⟨line, rfl, hline, by simp, Or.inr ⟨rfl, by simp⟩⟩⟩
      · have hlt : i < codes.length := Nat.lt_of_le_of_ne hi hiE
        have hpr : codes[i]? = some codes[i] := List.getElem?_eq_getElem hlt
        have hmem : codes[i] ∈ codes := List.getElem_mem hlt
        obtain ⟨p, hmatch⟩ := matchCode_rstrip (by decide) hS
        have hsub := reSubCode_of_no_backslash hmatch (hb _ hmem).1
        by_cases hrec : (matchCode 'R' (rstrip m)).isSome ∧ truthyOpt (codes[i].2) = true
        · obtain ⟨hrecS, htr⟩ := hrec
          obtain ⟨⟨rp1, rp2⟩, hrp⟩ := Option.isSome_iff_exists.mp hrecS
          obtain ⟨cr, hcr⟩ : ∃ cr, codes[i].2 = some cr := by
            cases hc2 : codes[i].2 with
            | none => rw [hc2] at htr; exact absurd htr (by simp [truthyOpt])
            | some c => exact ⟨c, rfl⟩
          have hrp' : matchCode 'R' (rstrip m) = some (rp1, sufCode (rstrip m)) :=
            (matchCode_snd hrp) ▸ hrp
          have hsubr : reSubCode 'R' ((codes[i].2).getD []) (rstrip m) =
              some (cr ++ sufCode (rstrip m)) := by
            rw [hcr]
            exact reSubCode_of_no_backslash hrp' ((hb _ hmem).2 cr hcr)
          refine ⟨⟨outs ++ [codes[i].1 ++ sufCode (rstrip line), cr ++ sufCode (rstrip m)],
            e, i + 1, some m, 1, true⟩,
            [codes[i].1 ++ sufCode (rstrip line), cr ++ sufCode (rstrip m)],
            mergeInner_serve_rec hS hiE hpr hsub hm hrp' htr hsubr,
            rfl, by simp, hlt, Or.inr ⟨m, rfl, hm, by simp, Or.inl ⟨rfl, ?_⟩⟩⟩
          exact .cons (lineOutK_serve hS hmem)
            (.cons (lineOutK_reception hrecS hmem hcr) .nil)
        · have hnorec : matchCode 'R' (rstrip m) = none ∨ truthyOpt (codes[i].2) = false := by
            by_cases hA : (matchCode 'R' (rstrip m)).isSome
            · right
              cases htv : truthyOpt (codes[i].2)
              · rfl
              · exact absurd ⟨hA, htv⟩ hrec
            · exact Or.inl (Option.not_isSome_iff_eq_none.mp hA)
          rw [mergeInner_serve_step hS hiE hpr hsub hm hnorec]
          obtain ⟨r', Δ', hr', houts', hcons', hidx', hbr'⟩ :=
            ih m (i + 1) e (outs ++ [codes[i].1 ++ sufCode (rstrip line)]) hm hrest' hlt
          refine ⟨{ r' with consumed := r'.consumed + 1 },
            (codes[i].1 ++ sufCode (rstrip line)) :: Δ', by rw [hr']; rfl, ?_, ?_, hidx', ?_⟩
          · simpa using houts'
          · simpa using hcons'
          · rcases hbr' with ⟨hheld, hfa⟩ | ⟨hl, hheld, hlne, hlast, hflag⟩
            · refine Or.inl ⟨hheld, ?_⟩
              rw [List.take_succ_cons]
              exact .cons (lineOutK_serve hS hmem) hfa
            · refine Or.inr ⟨hl, hheld, hlne, ?_, ?_⟩
              · rw [hlast]
                show _ = (line :: (m :: rest').take (r'.consumed + 1)).getLast _
                rw [List.take_succ_cons]
                exact (List.getLast_cons (by simp)).symm
              · rcases hflag with ⟨hfl, hfa⟩ | ⟨hfl, hfa⟩
                · refine Or.inl ⟨hfl, ?_⟩
                  show List.Forall₂ _ (line :: (m :: rest').take (r'.consumed + 1)) _
                  rw [List.take_succ_cons]
                  exact .cons (lineOutK_serve hS hmem) hfa
                · refine Or.inr ⟨hfl, ?_⟩
                  show List.Forall₂ _ (line :: (m :: rest').take (r'.consumed + 1)).dropLast _
                  rw [List.take_succ_cons, List.dropLast_cons₂]
                  exact .cons (lineOutK_serve hS hmem) hfa
    · have hSn : matchCode 'S' line = none := Option.not_isSome_iff_eq_none.mp hS
      exact ⟨⟨outs, e, i, some line, 0, false⟩, [], mergeInner_not_serve hSn,
        by simp, Nat.zero_le _, hi,
        Or.inr ⟨line, rfl, hline, by simp, Or.inr ⟨rfl, by simp⟩⟩⟩

/-- A nonempty non-serve line is rstripped and printed, whether in the
pass-through region or not. -/
theorem mergeOuter_junk {codes : List CodePair} {ln : Option Nat} {i e c : Nat}
    {outs : List Line} {line : Line} {rest : List Line}
    (hline : line ≠ []) (hS : matchCode 'S' line = none) :
    mergeOuter codes ln i e c outs (line :: rest) =
      mergeOuter codes ln i e (c + 1) (outs ++ [rstrip line]) rest := by
  by_cases hp : truthyNat ln = true ∧ c + 1 < ln.getD 0
  · exact mergeOuter_pass hp
  · rw [mergeOuter_scan hp, mergeInner_not_serve hS]
    simp [truthyLine, hline]

/-- Full specification of a merge run on backslash-free codes and
nonempty lines: it never raises, and its output accounts — via
`LineOutK` — for every input line, in order, one printed payload per
input line. -/
theorem mergeOuter_spec {codes : List CodePair} (hb : BackslashFree codes) :
    ∀ (n : Nat) (lines : List Line), lines.length ≤ n → (∀ l ∈ lines, l ≠ []) →
      ∀ (ln : Option Nat) (i e c : Nat) (outs : List Line), i ≤ codes.length →
      ∃ Δ e' i', mergeOuter codes ln i e c outs lines = some (outs ++ Δ, e', i') ∧
        i' ≤ codes.length ∧ List.Forall₂ (LineOutK codes) lines Δ := by
  intro n
  induction n with
  | zero =>
    intro lines hlen hne ln i e c outs hi
    have hnil : lines = [] := List.eq_nil_of_length_eq_zero (Nat.le_zero.mp hlen)
    subst hnil
    exact ⟨[], e, i, by simpa using mergeOuter_nil, hi, .nil⟩
  | succ n ih =>
    intro lines hlen hne ln i e c outs hi
    match lines with
    | [] => exact ⟨[], e, i, by simpa using mergeOuter_nil, hi, .nil⟩
    | line :: rest =>
      have hline : line ≠ [] := hne line (List.mem_cons_self ..)
      have hrest : ∀ l ∈ rest, l ≠ [] := fun l hl => hne l (List.mem_cons_of_mem _ hl)
      have hlenr : rest.length ≤ n := by simpa using hlen
      by_cases hp : truthyNat ln = true ∧ c + 1 < ln.getD 0
      · rw [mergeOuter_pass hp]
        obtain ⟨Δ, e', i', heq, hi', hfa⟩ :=
          ih rest hlenr hrest ln i e (c + 1) (outs ++ [rstrip line]) hi
        exact ⟨rstrip line :: Δ, e', i', by simpa using heq, hi',
          .cons (lineOutK_rstrip line) hfa⟩
      · rw [mergeOuter_scan hp]
        obtain ⟨r, Δ, hr, houts, hcons, hidx, hbr⟩ :=
          mergeInner_spec hb rest line i e outs hline hrest hi
        rw [hr]
        dsimp only
        have hlend : (rest.drop r.consumed).length ≤ n := by
          simp only [List.length_drop]
          omega
        have hned : ∀ l ∈ rest.drop r.consumed, l ≠ [] :=
          fun l hl => hrest l (List.mem_of_mem_drop hl)
        have hsplit : line :: rest =
            (line :: rest.take r.consumed) ++ rest.drop r.consumed := by
          simp [List.take_append_drop]
        rcases hbr with ⟨hheld, hfa⟩ | ⟨hl, hheld, hlne, hlast, hflag⟩
        · have hcond : (if truthyLine r.held ∧ r.flag = false then
              r.outs ++ [rstrip (r.held.getD [])] else r.outs) = r.outs := by
            simp [hheld, truthyLine]
          rw [hcond]
          obtain ⟨Δ₂, e', i', heq, hi', hfa₂⟩ :=
            ih (rest.drop r.consumed) hlend hned ln r.index r.errs (c + 1) r.outs hidx
          refine ⟨Δ ++ Δ₂, e', i', ?_, hi', ?_⟩
          · rw [heq, houts]
            simp [List.append_assoc]
          · rw [hsplit]
            exact List.rel_append hfa hfa₂
        · rcases hflag with ⟨hfl, hfa⟩ | ⟨hfl, hfa⟩
          · have hcond : (if truthyLine r.held ∧ r.flag = false then
                r.outs ++ [rstrip (r.held.getD [])] else r.outs) = r.outs := by
              simp [hfl]
            rw [hcond]
            obtain ⟨Δ₂, e', i', heq, hi', hfa₂⟩ :=
              ih (rest.drop r.consumed) hlend hned ln r.index r.errs (c + 1) r.outs hidx
            refine ⟨Δ ++ Δ₂, e', i', ?_, hi', ?_⟩
            · rw [heq, houts]
              simp [List.append_assoc]
            · rw [hsplit]
              exact List.rel_append hfa hfa₂
          · have hcond : (if truthyLine r.held ∧ r.flag = false then
                r.outs ++ [rstrip (r.held.getD [])] else r.outs) = r.outs ++ [rstrip hl] := by
              simp [hheld, truthyLine, hlne, hfl]
            rw [hcond]
            obtain ⟨Δ₂, e', i', heq, hi', hfa₂⟩ :=
              ih (rest.drop r.consumed) hlend hned ln r.index r.errs (c + 1)
                (r.outs ++ [rstrip hl]) hidx
            refine ⟨(Δ ++ [rstrip hl]) ++ Δ₂, e', i', ?_, hi', ?_⟩
            · rw [heq, houts]
              simp [List.append_assoc]
            · rw [hsplit]
              refine List.rel_append ?_ hfa₂
              have hgl : (line :: rest.take r.consumed) =
                  (line :: rest.take r.consumed).dropLast ++
                    [(line :: rest.take r.consumed).getLast (by simp)] :=
                (List.dropLast_append_getLast _).symm
              rw [hgl]
              refine List.rel_append hfa ?_
              rw [← hlast]
              exact .cons (lineOutK_rstrip hl) .nil

/-- `merge` on backslash-free codes and nonempty lines: succeeds, one
output payload per input line, each related by `LineOutK`. -/
theorem merge_spec {codes : List CodePair} {lines : List Line} {ln : Option Nat}
    (hb : BackslashFree codes) (hne : ∀ l ∈ lines, l ≠ []) :
    ∃ outs e i, merge codes lines ln = some (outs, e, i) ∧
      List.Forall₂ (LineOutK codes) lines outs := by
  obtain ⟨Δ, e', i', heq, -, hfa⟩ := mergeOuter_spec hb lines.length lines (Nat.le_refl _)
    hne ln 0 0 0 [] (Nat.zero_le _)
  exact ⟨Δ, e', i', by simpa [merge] using heq, hfa⟩

/-! ### Extraction lemmas -/

/-- A captured code matches its own pattern, with nothing left over. -/
theorem matchCode_self {d : Char} {l p s : Line} (h : matchCode d l = some (p, s)) :
    matchCode d p = some (p, []) := by
  obtain ⟨c0, c1, c2, rest, hl, h0, h1, h2, hp, -⟩ := matchCode_some_elim h
  subst hp
  rw [matchCode_cons₄ h0 h1 h2]
  have ht : (rest.takeWhile (· ≠ ';')).takeWhile (· ≠ ';') = rest.takeWhile (· ≠ ';') :=
    List.takeWhile_eq_self_iff.mpr
      (fun a ha => List.mem_takeWhile_imp (p := fun x => decide (x ≠ ';')) ha)
  have hd : (rest.takeWhile (· ≠ ';')).dropWhile (· ≠ ';') = [] :=
    List.dropWhile_eq_nil_iff.mpr
      (fun a ha => List.mem_takeWhile_imp (p := fun x => decide (x ≠ ';')) ha)
  rw [ht, hd]

/-- The extraction step on a serve line appends a fresh pair. -/
theorem extractStep_serve {acc : List CodePair} {d : Nat} {l : Line} {code : Code} {s : Line}
    (hS : matchCode 'S' l = some (code, s)) :
    extractStep acc d l = (acc ++ [(code, none)], d) := by
  unfold extractStep
  rw [hS]

/-- The extraction step ignores lines matching neither pattern. -/
theorem extractStep_skip {acc : List CodePair} {d : Nat} {l : Line}
    (hS : matchCode 'S' l = none) (hR : matchCode 'R' l = none) :
    extractStep acc d l = (acc, d) := by
  unfold extractStep
  rw [hS, hR]

/-- The extraction step on an orphan reception line only counts a
diagnostic. -/
theorem extractStep_orphan {acc : List CodePair} {d : Nat} {l : Line} {code : Code} {s : Line}
    (hS : matchCode 'S' l = none) (hR : matchCode 'R' l = some (code, s))
    (hc : acc = [] ∨ truthyOpt ((acc.getLast?.getD ([], none)).2) = true) :
    extractStep acc d l = (acc, d + 1) := by
  unfold extractStep
  rw [hS, hR]
  dsimp only
  rw [if_pos hc]

/-- The extraction step on an attachable reception line fills the last
pair's reception slot. -/
theorem extractStep_attach {acc : List CodePair} {d : Nat} {l : Line} {code : Code} {s : Line}
    (hS : matchCode 'S' l = none) (hR : matchCode 'R' l = some (code, s))
    (hc : ¬(acc = [] ∨ truthyOpt ((acc.getLast?.getD ([], none)).2) = true)) :
    extractStep acc d l =
      (acc.dropLast ++ [((acc.getLast?.getD ([], none)).1, some code)], d) := by
  unfold extractStep
  rw [hS, hR]
  dsimp only
  rw [if_neg hc]

/-- One extraction step preserves well-formedness of all pairs. -/
theorem extractStep_wf {acc : List CodePair} {d : Nat} {l : Line}
    (h : ∀ pr ∈ acc, PairWf pr) : ∀ pr ∈ (extractStep acc d l).1, PairWf pr := by
  cases hS : matchCode 'S' l with
  | some x =>
    obtain ⟨code, s⟩ := x
    rw [extractStep_serve hS]
    intro pr hpr
    simp only [List.mem_append, List.mem_singleton] at hpr
    rcases hpr with hpr | hpr
    · exact h pr hpr
    · subst hpr
      exact ⟨matchCode_self hS, by simp⟩
  | none =>
    cases hR : matchCode 'R' l with
    | none =>
      rw [extractStep_skip hS hR]
      exact h
    | some x =>
      obtain ⟨code, s⟩ := x
      by_cases hc : acc = [] ∨ truthyOpt ((acc.getLast?.getD ([], none)).2) = true
      · rw [extractStep_orphan hS hR hc]
        exact h
      · have hne : acc ≠ [] := fun he => hc (Or.inl he)
        rw [extractStep_attach hS hR hc]
        intro pr hpr
        simp only [List.mem_append, List.mem_singleton] at hpr
        rcases hpr with hpr | hpr
        · exact h pr (List.dropLast_subset _ hpr)
        · subst hpr
          have hlast : PairWf (acc.getLast hne) := h _ (List.getLast_mem hne)
          rw [List.getLast?_eq_getLast _ hne]
          refine ⟨hlast.1, ?_⟩
          intro c hc2
          rw [Option.some.injEq] at hc2
          exact hc2 ▸ matchCode_self hR

/-- All pairs the extractor produces are well-formed. -/
theorem extractAux_wf :
    ∀ (lines : List Line) (acc : List CodePair) (d : Nat),
      (∀ pr ∈ acc, PairWf pr) → ∀ pr ∈ (extractAux acc d lines).1, PairWf pr := by
  intro lines
  induction lines with
  | nil => intro acc d h pr hpr; exact h pr hpr
  | cons l ls ih =>
    intro acc d h pr hpr
    simp only [extractAux] at hpr
    exact ih _ _ (extractStep_wf h) pr hpr

/-- The serve codes of the extraction are exactly the serve captures of
the file's lines, in file order. -/
theorem extractAux_map_fst :
    ∀ (lines : List Line) (acc : List CodePair) (d : Nat),
      (extractAux acc d lines).1.map Prod.fst =
        acc.map Prod.fst ++ lines.filterMap (fun l => (matchCode 'S' l).map Prod.fst) := by
  intro lines
  induction lines with
  | nil => intro acc d; simp [extractAux]
  | cons l ls ih =>
    intro acc d
    simp only [extractAux]
    have hfst : (extractStep acc d l).1.map Prod.fst =
        acc.map Prod.fst ++ ((matchCode 'S' l).map Prod.fst).toList := by
      cases hS : matchCode 'S' l with
      | some x =>
        obtain ⟨code, s⟩ := x
        rw [extractStep_serve hS]
        simp
      | none =>
        show (extractStep acc d l).1.map Prod.fst = acc.map Prod.fst ++ []
        rw [List.append_nil]
        cases hR : matchCode 'R' l with
        | none => rw [extractStep_skip hS hR]
        | some x =>
          obtain ⟨code, s⟩ := x
          by_cases hc : acc = [] ∨ truthyOpt ((acc.getLast?.getD ([], none)).2) = true
          · rw [extractStep_orphan hS hR hc]
          · have hne : acc ≠ [] := fun he => hc (Or.inl he)
            rw [extractStep_attach hS hR hc, List.getLast?_eq_getLast _ hne]
            simp only [Option.getD_some, List.map_append, List.map_cons, List.map_nil]
            conv_rhs => rw [← List.dropLast_append_getLast hne, List.map_append]
            rfl
    rw [ih, hfst]
    cases hS : matchCode 'S' l with
    | some x => simp [hS]
    | none => simp [hS]

/-! ### Claim C5 -/

/-- C5: during extraction, a reception-pattern line that arrives when the
pair list is empty, or when the last pair's reception slot is already
filled (extraction only ever fills slots with nonempty captures, so
"filled" coincides with the code's truthiness test), does not crash
extraction (the step is a total function), emits exactly one diagnostic
on the error stream, leaves the pair list exactly as it was, and
extraction continues with the remaining lines. -/
theorem C5_orphan_reception {acc : List CodePair} {d : Nat} {l : Line} {ls : List Line}
    (hR : (matchCode 'R' l).isSome)
    (horphan : acc = [] ∨ truthyOpt ((acc.getLast?.getD ([], none)).2) = true) :
    extractStep acc d l = (acc, d + 1) ∧
      extractAux acc d (l :: ls) = extractAux acc (d + 1) ls := by
  have hS : matchCode 'S' l = none := matchCode_disjoint hR (by decide)
  obtain ⟨⟨code, s⟩, hx⟩ := Option.isSome_iff_exists.mp hR
  have hstep := extractStep_orphan (d := d) hS hx horphan
  refine ⟨hstep, ?_⟩
  simp only [extractAux, hstep]

/-- Witness for C5: a reception line as the first line of the file. -/
theorem C5_witness :
    extractStep [] 0 ['*', '0', '1', 'R', 'x', ';'] = ([], 1) ∧
      extractAux [] 0 [['*', '0', '1', 'R', 'x', ';'], ['z']] = extractAux [] 1 [['z']] :=
  C5_orphan_reception (by decide) (Or.inl rfl)

/-! ### Claim C10 -/

/-- C10: invariants of the extractor.  (1) Every serve code of the output
is a nonempty full capture of the serve pattern (leading `*` or `a`, two
digits, `S`, then `';'`-free characters — note `[^;]` also admits the
line's trailing newline when the line has no `';'`), and every present
reception code likewise for the reception pattern; (2) the serve codes
are exactly the serve captures of the file's lines, in file order;
(3) an extraction step never modifies any pair before the last one and
never removes pairs; (4) once a pair's reception slot holds a (nonempty)
code, no extraction step modifies that pair again — the list only grows
past it. -/
theorem C10_extractor_invariants :
    (∀ (lines : List Line) (pr : CodePair), pr ∈ get_verbose_service_codes lines →
        (matchCode 'S' pr.1 = some (pr.1, []) ∧ pr.1 ≠ []) ∧
          ∀ c, pr.2 = some c → matchCode 'R' c = some (c, []) ∧ c ≠ []) ∧
      (∀ lines : List Line, (get_verbose_service_codes lines).map Prod.fst =
          lines.filterMap (fun l => (matchCode 'S' l).map Prod.fst)) ∧
      (∀ (acc : List CodePair) (d : Nat) (l : Line),
          (extractStep acc d l).1.take (acc.length - 1) = acc.take (acc.length - 1) ∧
            acc.length ≤ (extractStep acc d l).1.length) ∧
      (∀ (acc : List CodePair) (d : Nat) (l : Line) (pre : List CodePair) (cs c : Code),
          acc = pre ++ [(cs, some c)] → c ≠ [] →
          (extractStep acc d l).1 = acc ∨ ∃ np, (extractStep acc d l).1 = acc ++ [np]) := by
  refine ⟨?_, ?_, ?_, ?_⟩
  · intro lines pr hpr
    obtain ⟨h1, h2⟩ := extractAux_wf lines [] 0 (by simp) pr hpr
    refine ⟨⟨h1, ?_⟩, ?_⟩
    · obtain ⟨c0, c1, c2, rest, hl, -⟩ := matchCode_some_elim h1
      rw [hl]
      simp
    · intro c hc
      have h3 := h2 c hc
      obtain ⟨c0, c1, c2, rest, hl, -⟩ := matchCode_some_elim h3
      exact ⟨h3, by rw [hl]; simp⟩
  · intro lines
    simpa using extractAux_map_fst lines [] 0
  · intro acc d l
    cases hS : matchCode 'S' l with
    | some x =>
      obtain ⟨code, s⟩ := x
      rw [extractStep_serve hS]
      refine ⟨List.take_append_of_le_length ?_, ?_⟩
      · omega
      · simp
    | none =>
      cases hR : matchCode 'R' l with
      | none => rw [extractStep_skip hS hR]; exact ⟨rfl, Nat.le_refl _⟩
      | some x =>
        obtain ⟨code, s⟩ := x
        by_cases hc : acc = [] ∨ truthyOpt ((acc.getLast?.getD ([], none)).2) = true
        · rw [extractStep_orphan hS hR hc]; exact ⟨rfl, Nat.le_refl _⟩
        · have hne : acc ≠ [] := fun he => hc (Or.inl he)
          have hpos : 0 < acc.length := List.length_pos.mpr hne
          rw [extractStep_attach hS hR hc]
          constructor
          · rw [List.take_append_of_le_length (by simp [List.length_dropLast]),
              List.dropLast_eq_take, List.take_take]
            simp
          · simp only [List.length_append, List.length_dropLast, List.length_cons,
              List.length_nil]
            omega
  · intro acc d l pre cs c hacc hcne
    cases hS : matchCode 'S' l with
    | some x =>
      obtain ⟨code, s⟩ := x
      exact Or.inr ⟨(code, none), by rw [extractStep_serve hS]⟩
    | none =>
      cases hR : matchCode 'R' l with
      | none => exact Or.inl (by rw [extractStep_skip hS hR])
      | some x =>
        obtain ⟨code, s⟩ := x
        have htr : truthyOpt ((acc.getLast?.getD ([], none)).2) = true := by
          subst hacc
          rw [List.getLast?_concat]
          simp [truthyOpt, hcne]
        exact Or.inl (by rw [extractStep_orphan hS hR (Or.inr htr)])

/-- Witness for C10 at a concrete annotated file and a concrete
already-filled pair. -/
theorem C10_witness :
    ((matchCode 'S' ['a', '0', '1', 'S'] = some (['a', '0', '1', 'S'], []) ∧
        (['a', '0', '1', 'S'] : Code) ≠ []) ∧
      (∀ c, (some ['*', '0', '2', 'R'] : Option Code) = some c →
        matchCode 'R' c = some (c, []) ∧ c ≠ [])) ∧
    ((extractStep [(['s'], some ['r'])] 0 ['*', '0', '1', 'R', ';']).1 =
        [(['s'], some ['r'])] ∨
      ∃ np, (extractStep [(['s'], some ['r'])] 0 ['*', '0', '1', 'R', ';']).1 =
        [(['s'], some ['r'])] ++ [np]) :=
  ⟨C10_extractor_invariants.1 [['a', '0', '1', 'S', ';'], ['*', '0', '2', 'R', ';']]
      (['a', '0', '1', 'S'], some ['*', '0', '2', 'R']) (by decide),
    C10_extractor_invariants.2.2.2 [(['s'], some ['r'])] 0 ['*', '0', '1', 'R', ';']
      [] ['s'] ['r'] rfl (by decide)⟩

/-! ### Claim C8 -/

/-- C8 counterexample: a path naming an existing filesystem object that
is neither a directory nor a regular file (a FIFO, socket, or device
node) with the `.dvw` extension is accepted by `is_dvw_file`, though it
is not a regular file — the claimed "if and only if … is a regular file"
fails. -/
theorem C8_counterexample :
    is_dvw_file FileKind.special ['x', '.', 'd', 'v', 'w'] = true ∧
      isRegularFile FileKind.special = false := by
  constructor
  · rfl
  · rfl

/-- C8 (amended): the validation accepts a path iff it exists, is not a
directory (weaker than being a regular file), and ends in `.dvw`; and
whenever either supplied path fails the validation, the program exits
before the merge — and hence before any file mutation — runs. -/
theorem C8_validation :
    (∀ (k : FileKind) (p : List Char),
        is_dvw_file k p = true ↔
          pathExists k = true ∧ isDirKind k = false ∧ endsWithDvw p = true) ∧
      (∀ (ik sk : FileKind) (ip sp : List Char) (sl tl : List Line) (ln : Option Nat),
          (¬is_dvw_file ik ip = true ∨ ¬is_dvw_file sk sp = true) →
          ∀ res, runMain ik sk ip sp sl tl ln ≠ RunOutcome.merged res) := by
  constructor
  · intro k p
    cases k <;>
      simp [is_dvw_file, pathExists, isDirKind] <;>
      by_cases he : endsWithDvw p = true <;> simp [he]
  · intro ik sk ip sp sl tl ln h res
    unfold runMain
    rcases h with h | h
    · simp [h]
    · by_cases h2 : is_dvw_file ik ip = true
      · simp [h2, h]
      · simp [h2]

/-- Witness for C8: an absent input path makes the program exit without
merging. -/
theorem C8_witness :
    ∀ res, runMain FileKind.absent FileKind.regular ['x', '.', 'd', 'v', 'w']
        ['y', '.', 'd', 'v', 'w'] [] [] none ≠ RunOutcome.merged res :=
  C8_validation.2 FileKind.absent FileKind.regular ['x', '.', 'd', 'v', 'w']
    ['y', '.', 'd', 'v', 'w'] [] [] none (Or.inl (by decide))

/-! ### Claim C7 -/

/-- The pass-through region: with a truthy starting line number `n`, the
first `k` lines (while `current_line` stays below `n`) are printed
rstripped, with the cursor, diagnostics and output position otherwise
untouched. -/
theorem mergeOuter_passthrough_front {codes : List CodePair} {n : Nat} (hn : n ≠ 0) :
    ∀ (k : Nat) (lines : List Line) (i e c : Nat) (outs : List Line),
      c + k + 1 ≤ n → k ≤ lines.length →
      mergeOuter codes (some n) i e c outs lines =
        mergeOuter codes (some n) i e (c + k) (outs ++ (lines.take k).map rstrip)
          (lines.drop k) := by
  intro k
  induction k with
  | zero => intro lines i e c outs _ _; simp
  | succ k ih =>
    intro lines i e c outs h1 h2
    match lines with
    | [] => simp at h2
    | l :: rest =>
      have hc : c + 1 < n := by omega
      rw [mergeOuter_pass ⟨by simp [truthyNat, hn], by simpa using hc⟩]
      rw [ih rest i e (c + 1) (outs ++ [rstrip l]) (by omega) (by simpa using h2)]
      have hcc : c + 1 + k = c + (k + 1) := by omega
      rw [hcc, List.take_succ_cons, List.drop_succ_cons, List.map_cons]
      simp

/-- C7 (amended): with a starting line number `n ≥ 1`, the first
`min (n-1) (file length)` lines are written with only trailing
whitespace stripped — zero substitutions, zero diagnostics, cursor
untouched — and scanning resumes at line `n`.  ("Untouched" in the claim
fails byte-for-byte: see the counterexample.) -/
theorem C7_start_line {codes : List CodePair} {lines : List Line} {n : Nat} (hn : 0 < n) :
    merge codes lines (some n) =
      mergeOuter codes (some n) 0 0 (min (n - 1) lines.length)
        ((lines.take (min (n - 1) lines.length)).map rstrip)
        (lines.drop (min (n - 1) lines.length)) := by
  unfold merge
  have h := @mergeOuter_passthrough_front codes n (by omega)
    (min (n - 1) lines.length) lines 0 0 0 []
  simp only [Nat.zero_add, List.nil_append] at h
  exact h (by omega) (Nat.min_le_right _ _)

/-- C7 counterexample: with starting line number 2, line 1 is written
with its trailing space stripped, not byte-for-byte untouched. -/
theorem C7_counterexample :
    merge [] [['p', ' ', '\n'], ['q', '\n']] (some 2) = some ([['p'], ['q']], 0, 0) ∧
      (['p'] : Line) ≠ ['p', ' ', '\n'] := by
  refine ⟨?_, by decide⟩
  simp [merge, mergeOuter, mergeInner, matchCode, rstrip, truthyNat, truthyLine, pyIsSpace]

/-- Witness for C7 at a concrete file and starting line number 3. -/
theorem C7_witness :
    merge [] [['p', ' ', '\n'], ['q', '\n']] (some 3) =
      mergeOuter [] (some 3) 0 0 (min 2 2)
        (([['p', ' ', '\n'], ['q', '\n']].take (min 2 2)).map rstrip)
        ([['p', ' ', '\n'], ['q', '\n']].drop (min 2 2)) :=
  C7_start_line (by decide)

/-! ### Claim C6 -/

/-- After the pair list is exhausted the merge runs to completion without
raising: every remaining scanned line — serve-pattern lines included —
is written with only trailing whitespace stripped, and exactly one
diagnostic is emitted per remaining serve-pattern line.  (The hypothesis
on `ln` states that the pass-through region is already past; in that
region serve lines are copied without diagnostics by design.) -/
theorem mergeOuter_exhausted_run {codes : List CodePair} {ln : Option Nat} :
    ∀ (lines : List Line) (e c : Nat) (outs : List Line),
      (∀ l ∈ lines, l ≠ []) → (truthyNat ln = true → ln.getD 0 ≤ c + 1) →
      mergeOuter codes ln codes.length e c outs lines =
        some (outs ++ lines.map rstrip,
          e + (lines.filter (fun l => (matchCode 'S' l).isSome)).length, codes.length) := by
  intro lines
  induction lines with
  | nil => intro e c outs _ _; simp [mergeOuter_nil]
  | cons l rest ih =>
    intro e c outs hne hln
    have hl : l ≠ [] := hne l (List.mem_cons_self ..)
    have hrest : ∀ x ∈ rest, x ≠ [] := fun x hx => hne x (List.mem_cons_of_mem _ hx)
    have hln' : truthyNat ln = true → ln.getD 0 ≤ c + 1 + 1 :=
      fun h => Nat.le_trans (hln h) (by omega)
    have hp : ¬(truthyNat ln = true ∧ c + 1 < ln.getD 0) := by
      rintro ⟨h1, h2⟩
      exact absurd (hln h1) (by omega)
    by_cases hS : (matchCode 'S' l).isSome
    · rw [mergeOuter_scan hp, mergeInner_exhausted hS rfl]
      dsimp only
      rw [if_pos ⟨by simp [truthyLine, hl], rfl⟩, List.drop_zero, Option.getD_some,
        ih (e + 1) (c + 1) (outs ++ [rstrip l]) hrest hln']
      rw [List.filter_cons_of_pos (by simpa using hS)]
      simp only [List.map_cons, List.append_nil, List.length_cons, Prod.mk.injEq,
        Option.some.injEq]
      exact ⟨by simp, by omega, trivial⟩
    · rw [mergeOuter_junk hl (Option.not_isSome_iff_eq_none.mp hS)]
      rw [ih e (c + 1) (outs ++ [rstrip l]) hrest hln']
      rw [List.filter_cons_of_neg (by simpa using hS)]
      simp only [List.map_cons, List.append_nil, Prod.mk.injEq, Option.some.injEq]
      exact ⟨by simp, trivial⟩

/-- C6 (amended): (a) once the pair sequence is exhausted, the merge runs
to completion with no unhandled failure, writing each remaining scanned
line — matched serve-pattern lines included — back with only trailing
whitespace stripped (not byte-identically: see the counterexample) and
emitting exactly one diagnostic per remaining serve-pattern line; and
(b) whenever `merge` returns at all, its returned success indicator is
`True` — it is never `False`. -/
theorem C6_exhaustion_nonfatal :
    (∀ (codes : List CodePair) (ln : Option Nat) (lines : List Line) (e c : Nat)
        (outs : List Line),
        (∀ l ∈ lines, l ≠ []) → (truthyNat ln = true → ln.getD 0 ≤ c + 1) →
        mergeOuter codes ln codes.length e c outs lines =
          some (outs ++ lines.map rstrip,
            e + (lines.filter (fun l => (matchCode 'S' l).isSome)).length, codes.length)) ∧
      (∀ (codes : List CodePair) (lines : List Line) (ln : Option Nat) (b : Bool),
          mergeReturn codes lines ln = some b → b = true) := by
  constructor
  · intro codes ln lines e c outs h1 h2
    exact mergeOuter_exhausted_run lines e c outs h1 h2
  · intro codes lines ln b h
    unfold mergeReturn at h
    cases hm : merge codes lines ln with
    | none => rw [hm] at h; exact absurd h (by simp)
    | some r => rw [hm] at h; simpa using h.symm

/-- C6 counterexample: an unmatched serve line with trailing whitespace
is not passed through unmodified — its trailing space is stripped. -/
theorem C6_counterexample :
    merge [] [['a', '0', '1', 'S', 'x', ' ', '\n']] none =
        some ([['a', '0', '1', 'S', 'x']], 1, 0) ∧
      (['a', '0', '1', 'S', 'x'] : Line) ≠ ['a', '0', '1', 'S', 'x', ' ', '\n'] := by
  refine ⟨?_, by decide⟩
  simp [merge, mergeOuter, mergeInner, matchCode, rstrip, truthyNat, truthyLine, pyIsSpace,
    isAsciiDigit]

/-- Witness for C6 on a concrete exhausted merge: one serve line and one
junk line remaining, no pairs. -/
theorem C6_witness :
    mergeOuter [] none 0 0 0 [] [['a', '0', '1', 'S', ';', '\n'], ['z', '\n']] =
      some ([['a', '0', '1', 'S', ';'], ['z']], 1, 0) := by
  have h := C6_exhaustion_nonfatal.1 [] none [['a', '0', '1', 'S', ';', '\n'], ['z', '\n']]
    0 0 [] (by decide) (by intro h; cases h)
  simpa [rstrip, matchCode, pyIsSpace, isAsciiDigit] using h

/-! ### Claim C3 -/

/-- C3 counterexample: a line matching neither pattern, with a trailing
space, is written as `"zz"` — its trailing space (and original newline)
are replaced by `print`'s newline, so it is not byte-for-byte
unchanged. -/
theorem C3_counterexample :
    merge [] [['z', 'z', ' ', '\n']] none = some ([['z', 'z']], 0, 0) ∧
      (['z', 'z'] : Line) ≠ ['z', 'z', ' ', '\n'] := by
  refine ⟨?_, by decide⟩
  simp [merge, mergeOuter, mergeInner, matchCode, rstrip, truthyNat, truthyLine, pyIsSpace]

/-- C3 (amended): in a completed merge (codes backslash-free so no
template error is raised; lines nonempty as file iteration guarantees),
every line matching neither pattern is written as exactly its rstripped
self — byte-identical except that trailing whitespace is stripped and
`print`'s newline appended. -/
theorem C3_nonmatching_passthrough {codes : List CodePair} {lines : List Line}
    {ln : Option Nat} (hb : BackslashFree codes) (hne : ∀ l ∈ lines, l ≠ []) :
    ∃ outs e i, merge codes lines ln = some (outs, e, i) ∧ outs.length = lines.length ∧
      ∀ (j : Nat) (hj : j < lines.length),
        matchCode 'S' lines[j] = none → matchCode 'R' lines[j] = none →
        outs[j]? = some (rstrip lines[j]) := by
  obtain ⟨outs, e, i, heq, hfa⟩ := @merge_spec codes lines ln hb hne
  have hlen := hfa.length_eq
  refine ⟨outs, e, i, heq, hlen.symm, ?_⟩
  intro j hj hSn hRn
  have hk : kindOf lines[j] = .other := kindOf_other_iff.mpr ⟨hSn, hRn⟩
  have hj2 : j < outs.length := hlen ▸ hj
  have hrel := (List.forall₂_iff_get.mp hfa).2 j hj hj2
  rw [List.getElem?_eq_getElem hj2]
  exact congrArg some (hrel.1 hk)

/-- Witness for C3 at a concrete one-line file. -/
theorem C3_witness :
    ∃ outs e i, merge [] [['z', '\n']] none = some (outs, e, i) ∧ outs.length = 1 ∧
      ∀ (j : Nat) (hj : j < [['z', '\n']].length),
        matchCode 'S' [['z', '\n']][j] = none → matchCode 'R' [['z', '\n']][j] = none →
        outs[j]? = some (rstrip [['z', '\n']][j]) :=
  C3_nonmatching_passthrough (by simp [BackslashFree]) (by decide)

/-! ### Claim C2 -/

/-- C2 counterexample, two concrete runs.  (i) A pair whose serve code is
the two characters `\` `n` is not substituted verbatim: `re.sub` expands
the replacement template, so the written line begins with a newline
character, not with the code.  (ii) The suffix after the matched prefix
is not byte-identical: the line's trailing whitespace is stripped before
substitution. -/
theorem C2_counterexample :
    (merge [(['\\', 'n'], none)] [['a', '0', '1', 'S', 'x', ';', 'q', '\n']] none =
        some ([['\n', ';', 'q']], 0, 0) ∧
      ∀ t : Line, ['\n', ';', 'q'] ≠ ['\\', 'n'] ++ t) ∧
      (merge [(['Z'], none)] [['a', '0', '1', 'S', 'x', ';', 'q', ' ', '\n']] none =
        some ([['Z', ';', 'q']], 0, 0) ∧
      (['Z', ';', 'q'] : Line) ≠ ['Z'] ++ [';', 'q', ' ', '\n']) := by
  refine ⟨⟨?_, ?_⟩, ?_, by decide⟩
  · simp [merge, mergeOuter, mergeInner, matchCode, rstrip, reSubCode, expandTemplate,
      expandTemplateF, truthyNat, truthyLine, pyIsSpace, isAsciiDigit]
  · intro t h
    simp at h
  · simp [merge, mergeOuter, mergeInner, matchCode, rstrip, reSubCode, expandTemplate,
      expandTemplateF, truthyNat, truthyLine, pyIsSpace, isAsciiDigit]

/-- C2 (amended): when the inner loop holds a serve-pattern line and an
unconsumed pair remains, the line written for it is that pair's serve
code — verbatim, provided it contains no backslash (otherwise it is
parsed as a replacement template) — followed by the suffix of the line
after the matched prefix, with trailing whitespace stripped first.  (The
hypotheses that the remaining codes are backslash-free and the remaining
lines nonempty keep the rest of the loop from raising.) -/
theorem C2_serve_substitution {codes : List CodePair} {i e : Nat} {outs : List Line}
    {line : Line} {rest : List Line} {pr : CodePair}
    (hS : (matchCode 'S' line).isSome) (hi : codes[i]? = some pr)
    (hiE : ¬i = codes.length) (hb : BackslashFree codes) (hne : ∀ m ∈ rest, m ≠ []) :
    ∃ r rout, mergeInner codes i e false outs line rest = some r ∧
      r.outs = outs ++ (pr.1 ++ sufCode (rstrip line)) :: rout := by
  obtain ⟨hlt, hpr⟩ : ∃ h : i < codes.length, codes[i] = pr := by
    have := List.getElem?_eq_some_iff.mp hi
    exact this
  have hmem : pr ∈ codes := hpr ▸ List.getElem_mem hlt
  obtain ⟨p, hmatch⟩ := matchCode_rstrip (by decide) hS
  have hsub := reSubCode_of_no_backslash hmatch (hb pr hmem).1
  cases rest with
  | nil => exact ⟨_, [], mergeInner_serve_eof hS hiE hi hsub, rfl⟩
  | cons m rest' =>
    have hm : m ≠ [] := hne m (List.mem_cons_self ..)
    have hne' : ∀ x ∈ rest', x ≠ [] := fun x hx => hne x (List.mem_cons_of_mem _ hx)
    by_cases hrec : (matchCode 'R' (rstrip m)).isSome ∧ truthyOpt pr.2 = true
    · obtain ⟨hrecS, htr⟩ := hrec
      obtain ⟨⟨rp1, rp2⟩, hrp⟩ := Option.isSome_iff_exists.mp hrecS
      obtain ⟨cr, hcr⟩ : ∃ cr, pr.2 = some cr := by
        cases hc2 : pr.2 with
        | none => rw [hc2] at htr; exact absurd htr (by simp [truthyOpt])
        | some cc => exact ⟨cc, rfl⟩
      have hrp' : matchCode 'R' (rstrip m) = some (rp1, sufCode (rstrip m)) :=
        (matchCode_snd hrp) ▸ hrp
      have hsubr : reSubCode 'R' (pr.2.getD []) (rstrip m) =
          some (cr ++ sufCode (rstrip m)) := by
        rw [hcr]
        exact reSubCode_of_no_backslash hrp' ((hb pr hmem).2 cr hcr)
      exact ⟨_, [cr ++ sufCode (rstrip m)],
        mergeInner_serve_rec hS hiE hi hsub hm hrp' htr hsubr, rfl⟩
    · have hnorec : matchCode 'R' (rstrip m) = none ∨ truthyOpt pr.2 = false := by
        by_cases hA : (matchCode 'R' (rstrip m)).isSome
        · right
          cases htv : truthyOpt pr.2
          · rfl
          · exact absurd ⟨hA, htv⟩ hrec
        · exact Or.inl (Option.not_isSome_iff_eq_none.mp hA)
      rw [mergeInner_serve_step hS hiE hi hsub hm hnorec]
      obtain ⟨r', Δ', hr', houts', -, -, -⟩ :=
        mergeInner_spec hb rest' m (i + 1) e
          (outs ++ [pr.1 ++ sufCode (rstrip line)]) hm hne' hlt
      refine ⟨{ r' with consumed := r'.consumed + 1 }, Δ', by rw [hr']; rfl, ?_⟩
      simpa using houts'

/-- Witness for C2 at a concrete serve line and pair. -/
theorem C2_witness :
    ∃ r rout, mergeInner [(['X'], none)] 0 0 false [] ['a', '0', '1', 'S', ';', 't'] [] =
        some r ∧
      r.outs = [] ++ (['X'] ++ sufCode (rstrip ['a', '0', '1', 'S', ';', 't'])) :: rout :=
  @C2_serve_substitution [(['X'], none)] 0 0 [] ['a', '0', '1', 'S', ';', 't'] []
    (['X'], none) (by decide) (by decide) (by decide) (by unfold BackslashFree; decide)
    (by decide)

/-! ### Claim C4 -/

/-- C4 counterexample, two concrete runs.  (i) A serve line that is the
last line of the file is substituted but consumes no pair: the cursor
stays 0 where the claim requires exactly one pair consumed per serve
occurrence.  (ii) A pair whose reception slot holds the empty string is
"present" but falsy, so the following reception line is written
unchanged rather than having its prefix replaced. -/
theorem C4_counterexample :
    ((merge [(['A'], none), (['B'], none)] [['a', '0', '1', 'S', 'x', ';', '\n']] none).map
        (fun r => r.2.2) = some 0 ∧ (0 : Nat) ≠ 1) ∧
      (merge [(['A'], some [])]
          [['a', '0', '1', 'S', ';', '\n'], ['*', '0', '2', 'R', ';', '\n']] none =
        some ([['A', ';'], ['*', '0', '2', 'R', ';']], 0, 1) ∧
      (['*', '0', '2', 'R', ';'] : Line) ≠ [] ++ [';']) := by
  refine ⟨⟨?_, by decide⟩, ?_, by decide⟩
  · simp [merge, mergeOuter, mergeInner, matchCode, rstrip, reSubCode, expandTemplate,
      expandTemplateF, truthyNat, truthyLine, truthyOpt, pyIsSpace, isAsciiDigit]
  · simp [merge, mergeOuter, mergeInner, matchCode, rstrip, reSubCode, expandTemplate,
      expandTemplateF, truthyNat, truthyLine, truthyOpt, pyIsSpace, isAsciiDigit]

/-- C4 (amended): for the serve substitution at cursor `i` (codes
backslash-free where substituted):
(a) if the pair's reception code is present and nonempty and the
    following line matches the reception pattern, that line's matched
    prefix is replaced by the reception code, the rest of the rstripped
    line preserved, and exactly one pair is consumed;
(b) if the reception code is absent (or empty), or the following line
    does not match the reception pattern, no reception substitution
    occurs — the following line is handed back to the loop (written
    unchanged-but-rstripped later unless it is itself a serve line) and
    exactly one pair is consumed;
(c) but a serve line that is the last line of the file is substituted
    without consuming a pair — the loop breaks at end of file before the
    cursor increment. -/
theorem C4_reception_and_cursor {codes : List CodePair} {i e : Nat} {outs : List Line}
    {line m : Line} {rest' : List Line} {pr : CodePair}
    (hS : (matchCode 'S' line).isSome) (hi : codes[i]? = some pr) (hiE : ¬i = codes.length)
    (hbs : '\\' ∉ pr.1) (hm : m ≠ []) :
    (∀ cr rp, pr.2 = some cr → cr ≠ [] → '\\' ∉ cr →
        matchCode 'R' (rstrip m) = some rp →
        mergeInner codes i e false outs line (m :: rest') =
          some ⟨outs ++ [pr.1 ++ sufCode (rstrip line), cr ++ sufCode (rstrip m)],
            e, i + 1, some m, 1, true⟩) ∧
      ((matchCode 'R' (rstrip m) = none ∨ truthyOpt pr.2 = false) →
        mergeInner codes i e false outs line (m :: rest') =
          (mergeInner codes (i + 1) e false
              (outs ++ [pr.1 ++ sufCode (rstrip line)]) m rest').map
            (fun r => { r with consumed := r.consumed + 1 })) ∧
      mergeInner codes i e false outs line [] =
        some ⟨outs ++ [pr.1 ++ sufCode (rstrip line)], e, i, none, 0, false⟩ := by
  obtain ⟨p, hmatch⟩ := matchCode_rstrip (by decide) hS
  have hsub := reSubCode_of_no_backslash hmatch hbs
  refine ⟨?_, ?_, mergeInner_serve_eof hS hiE hi hsub⟩
  · intro cr rp hcr hcrne hcrb hrp
    obtain ⟨rp1, rp2⟩ := rp
    have hrp' : matchCode 'R' (rstrip m) = some (rp1, sufCode (rstrip m)) :=
      (matchCode_snd hrp) ▸ hrp
    have htr : truthyOpt pr.2 = true := by simp [hcr, truthyOpt, hcrne]
    have hsubr : reSubCode 'R' (pr.2.getD []) (rstrip m) =
        some (cr ++ sufCode (rstrip m)) := by
      rw [hcr]
      exact reSubCode_of_no_backslash hrp' hcrb
    exact mergeInner_serve_rec hS hiE hi hsub hm hrp' htr hsubr
  · intro hnorec
    exact mergeInner_serve_step hS hiE hi hsub hm hnorec

/-- Witness for C4 at a concrete serve/reception pair of lines. -/
theorem C4_witness :
    mergeInner [(['X'], some ['Y'])] 0 0 false [] ['a', '0', '1', 'S', ';']
        [['*', '0', '2', 'R', ';']] =
      some ⟨[['X', ';'], ['Y', ';']], 0, 1, some ['*', '0', '2', 'R', ';'], 1, true⟩ :=
  (@C4_reception_and_cursor [(['X'], some ['Y'])] 0 0 [] ['a', '0', '1', 'S', ';']
      ['*', '0', '2', 'R', ';'] [] (['X'], some ['Y']) (by decide) (by decide) (by decide)
      (by decide) (by decide)).1 ['Y'] (['*', '0', '2', 'R'], [';']) rfl (by decide)
    (by decide) (by decide)

/-! ### Claim C1 -/

/-- C1 counterexample, two concrete runs.  (i) A pair list whose code is
the invalid replacement template `\q` makes `re.sub` raise, so the merge
dies with an unhandled `re.error` and the output file (already truncated
by `fileinput`'s in-place rewriting) loses lines — the claim's universal
"for every input pair sequence" fails.  (ii) A line with trailing
whitespace is written neither substituted nor verbatim: its trailing
space is stripped. -/
theorem C1_counterexample :
    merge [(['\\', 'q'], none)] [['a', '0', '1', 'S', ';', '\n'], ['t', '\n']] none = none ∧
      (merge [] [['f', 'o', 'o', ' ', '\n']] none = some ([['f', 'o', 'o']], 0, 0) ∧
        (['f', 'o', 'o'] : Line) ≠ ['f', 'o', 'o', ' ', '\n']) := by
  refine ⟨?_, ?_, by decide⟩
  · simp [merge, mergeOuter, mergeInner, matchCode, rstrip, reSubCode, expandTemplate,
      expandTemplateF, truthyNat, truthyLine, pyIsSpace, isAsciiDigit, isOctDigit]
  · simp [merge, mergeOuter, mergeInner, matchCode, rstrip, truthyNat, truthyLine, pyIsSpace]

/-- C1 (amended): provided every code of the pair sequence is a
backslash-free replacement template (so `re.sub` cannot raise) and every
line is nonempty (as Python's file iteration guarantees), `merge`
completes and writes exactly one line per input line, in the original
order: each output line is either the original with trailing whitespace
stripped, or one of the pair sequence's codes spliced onto the rstripped
original's suffix.  No line is duplicated or lost. -/
theorem C1_lines_preserved {codes : List CodePair} {lines : List Line} {ln : Option Nat}
    (hb : BackslashFree codes) (hne : ∀ l ∈ lines, l ≠ []) :
    ∃ outs e i, merge codes lines ln = some (outs, e, i) ∧ outs.length = lines.length ∧
      List.Forall₂ (LineOut codes) lines outs := by
  obtain ⟨outs, e, i, heq, hfa⟩ := @merge_spec codes lines ln hb hne
  exact ⟨outs, e, i, heq, hfa.length_eq.symm, hfa.imp (fun a b h => h.2)⟩

/-- Witness for C1 at a concrete pair list and file. -/
theorem C1_witness :
    ∃ outs e i,
      merge [(['X'], none)] [['a', '0', '1', 'S', ';', '\n'], ['t', '\n']] none =
        some (outs, e, i) ∧
      outs.length = [['a', '0', '1', 'S', ';', '\n'], ['t', '\n']].length ∧
      List.Forall₂ (LineOut [(['X'], none)])
        [['a', '0', '1', 'S', ';', '\n'], ['t', '\n']] outs :=
  C1_lines_preserved (by unfold BackslashFree; decide) (by decide)

/-! ### Claim C9: helper lemmas -/

/-- `dropWhile` either returns `[]` or starts with an element failing the
predicate. -/
theorem dropWhile_head_cases {p : Char → Bool} :
    ∀ l : List Char, l.dropWhile p = [] ∨
      ∃ c t, l.dropWhile p = c :: t ∧ p c = false := by
  intro l
  induction l with
  | nil => exact Or.inl rfl
  | cons a t ih =>
    by_cases hp : p a = true
    · rw [List.dropWhile_cons_of_pos hp]
      exact ih
    · rw [List.dropWhile_cons_of_neg hp]
      exact Or.inr ⟨a, t, rfl, by simpa using hp⟩

/-- The suffix after a pattern match is empty or starts with `';'`. -/
theorem sufCode_cases (l : Line) : sufCode l = [] ∨ ∃ t, sufCode l = ';' :: t := by
  unfold sufCode
  rcases dropWhile_head_cases (l.drop 4) with h | ⟨c, t, h, hc⟩
  · exact Or.inl h
  · refine Or.inr ⟨t, ?_⟩
    have : c = ';' := by
      by_contra hne
      simp [hne] at hc
    rw [h, this]

theorem takeWhile_append_of_all {p : Char → Bool} :
    ∀ {l1 : List Char} (l2 : List Char), (∀ x ∈ l1, p x = true) →
      (l1 ++ l2).takeWhile p = l1 ++ l2.takeWhile p := by
  intro l1
  induction l1 with
  | nil => intro l2 _; rfl
  | cons a t ih =>
    intro l2 h
    rw [List.cons_append, List.takeWhile_cons_of_pos (h a (List.mem_cons_self ..)),
      ih l2 (fun x hx => h x (List.mem_cons_of_mem _ hx))]
    rfl

theorem dropWhile_append_of_all {p : Char → Bool} :
    ∀ {l1 : List Char} (l2 : List Char), (∀ x ∈ l1, p x = true) →
      (l1 ++ l2).dropWhile p = l2.dropWhile p := by
  intro l1
  induction l1 with
  | nil => intro l2 _; rfl
  | cons a t ih =>
    intro l2 h
    rw [List.cons_append, List.dropWhile_cons_of_pos (h a (List.mem_cons_self ..)),
      ih l2 (fun x hx => h x (List.mem_cons_of_mem _ hx))]

/-- A full capture glued onto a `';'`-headed (or empty) suffix matches
its pattern with exactly that suffix left over. -/
theorem matchCode_code_append {d : Char} {c suf : Line}
    (hc : matchCode d c = some (c, [])) (hsuf : suf = [] ∨ ∃ t, suf = ';' :: t) :
    matchCode d (c ++ suf) = some (c, suf) := by
  obtain ⟨c0, c1, c2, rest, hl, h0, h1, h2, hp, -⟩ := matchCode_some_elim hc
  have hrest : rest.takeWhile (· ≠ ';') = rest := by
    have := hl.symm.trans hp
    exact (List.cons.injEq .. ▸ (List.cons.injEq .. ▸ (List.cons.injEq .. ▸
      (List.cons.injEq .. ▸ this).2).2).2).2.symm
  have hall : ∀ x ∈ rest, (fun y => decide (y ≠ ';')) x = true := by
    intro x hx
    rw [← hrest] at hx
    exact List.mem_takeWhile_imp (p := fun y => decide (y ≠ ';')) hx
  have htake : (rest ++ suf).takeWhile (· ≠ ';') = rest := by
    rw [takeWhile_append_of_all suf hall]
    rcases hsuf with h | ⟨t, h⟩ <;> simp [h, List.takeWhile]
  have hdrop : (rest ++ suf).dropWhile (· ≠ ';') = suf := by
    rw [dropWhile_append_of_all suf hall]
    rcases hsuf with h | ⟨t, h⟩ <;> simp [h, List.dropWhile]
  rw [hl, List.cons_append, List.cons_append, List.cons_append, List.cons_append,
    matchCode_cons₄ h0 h1 h2, htake, hdrop, ← hl]

/-- The `adjOK` flag is irrelevant when the head is not a reception
line. -/
theorem adjOK_flag_irrel {r : Line} {rest : List Line} (h : kindOf r ≠ .reception)
    (b b' : Bool) : adjOK b (r :: rest) = adjOK b' (r :: rest) := by
  cases hk : kindOf r with
  | serve => simp [adjOK, hk]
  | reception => exact absurd hk h
  | other => simp [adjOK, hk]

/-- `pairsShape` is empty only for the empty pair list. -/
theorem pairsShape_eq_nil {p : List CodePair} (h : pairsShape p = []) : p = [] := by
  cases p with
  | nil => rfl
  | cons pr p' => simp [pairsShape] at h

/-- `pairsShape` starts with a serve marker when nonempty. -/
theorem pairsShape_head {p : List CodePair} {k : LineKind} {rest : List LineKind}
    (h : pairsShape p = k :: rest) : k = .serve := by
  cases p with
  | nil => simp [pairsShape] at h
  | cons pr p' =>
    simp only [pairsShape, List.map_cons, List.flatten_cons, List.cons_append] at h
    exact ((List.cons.injEq .. ▸ h).1).symm

/-- `Ready` lines are nonempty. -/
theorem ready_lines_ne_nil {p : List CodePair} {B : List Line} (h : Ready p B) :
    ∀ b ∈ B, b ≠ [] := by
  induction h with
  | nil => intro b hb; cases hb
  | junk hk hne _ ih =>
    intro b hb
    rcases List.mem_cons.mp hb with hb | hb
    · exact hb ▸ hne
    · exact ih b hb
  | serveNone hk _ _ ih =>
    intro b hb
    rcases List.mem_cons.mp hb with hb | hb
    · exact hb ▸ ne_nil_of_kind_serve hk
    · exact ih b hb
  | serveRec hk hkr _ _ ih =>
    intro b hb
    rcases List.mem_cons.mp hb with hb | hb
    · exact hb ▸ ne_nil_of_kind_serve hk
    · rcases List.mem_cons.mp hb with hb | hb
      · exact hb ▸ ne_nil_of_kind_reception hkr
      · exact ih b hb

/-- A `Ready` skeleton never starts with a reception line. -/
theorem ready_head_not_reception {p : List CodePair} {B : List Line} (h : Ready p B) :
    ∀ b ∈ B.head?, kindOf b ≠ .reception := by
  cases h with
  | nil => intro b hb; cases hb
  | junk hk _ _ =>
    intro b hb
    simp only [List.head?_cons, Option.mem_def, Option.some.injEq] at hb
    rw [hb] at hk
    simp [hk]
  | serveNone hk _ _ =>
    intro b hb
    simp only [List.head?_cons, Option.mem_def, Option.some.injEq] at hb
    rw [hb] at hk
    simp [hk]
  | serveRec hk _ _ _ =>
    intro b hb
    simp only [List.head?_cons, Option.mem_def, Option.some.injEq] at hb
    rw [hb] at hk
    simp [hk]

theorem extractSpec_nil : extractSpec [] = [] := by
  simp [extractSpec]

theorem extractSpec_cons_other {l : Line} {rest : List Line} (hk : ¬kindOf l = .serve) :
    extractSpec (l :: rest) = extractSpec rest := by
  cases rest with
  | nil => simp [extractSpec, hk]
  | cons r rest' => simp [extractSpec, hk]

theorem extractSpec_serve_nil {l : Line} (hk : kindOf l = .serve) :
    extractSpec [l] = [(codeOf 'S' l, none)] := by
  simp [extractSpec, hk]

theorem extractSpec_serve_rec {l r : Line} {rest' : List Line}
    (hk : kindOf l = .serve) (hkr : kindOf r = .reception) :
    extractSpec (l :: r :: rest') =
      (codeOf 'S' l, some (codeOf 'R' r)) :: extractSpec rest' := by
  simp [extractSpec, hk, hkr]

theorem extractSpec_serve_other {l r : Line} {rest' : List Line}
    (hk : kindOf l = .serve) (hkr : ¬kindOf r = .reception) :
    extractSpec (l :: r :: rest') = (codeOf 'S' l, none) :: extractSpec (r :: rest') := by
  simp [extractSpec, hk, hkr]

/-- On a file whose reception lines each immediately follow a serve line,
extraction computes `extractSpec`, with no diagnostics. -/
theorem extractAux_adjacent :
    ∀ (n : Nat) (A : List Line), A.length ≤ n → adjOK false A = true →
      ∀ (acc : List CodePair) (d : Nat),
        extractAux acc d A = (acc ++ extractSpec A, d) := by
  intro n
  induction n with
  | zero =>
    intro A hlen _ acc d
    have hnil : A = [] := List.eq_nil_of_length_eq_zero (Nat.le_zero.mp hlen)
    subst hnil
    simp [extractAux, extractSpec]
  | succ n ih =>
    intro A hlen hadj acc d
    match A with
    | [] => simp [extractAux, extractSpec]
    | l :: rest =>
      cases hk : kindOf l with
      | other =>
        obtain ⟨hS, hR⟩ := kindOf_other_iff.mp hk
        have hadj' : adjOK false rest = true := by simpa [adjOK, hk] using hadj
        rw [show extractAux acc d (l :: rest) = extractAux acc d rest from by
          simp only [extractAux, extractStep_skip hS hR]]
        rw [ih rest (by simpa using hlen) hadj' acc d]
        congr 1
        rw [extractSpec_cons_other (by simp [hk])]
      | reception => exact absurd hadj (by simp [adjOK, hk])
      | serve =>
        obtain ⟨⟨code, s⟩, hS⟩ := Option.isSome_iff_exists.mp (kindOf_serve_iff.mp hk)
        have hcode : codeOf 'S' l = code := by simp [codeOf, hS]
        have hadjr : adjOK true rest = true := by simpa [adjOK, hk] using hadj
        have hstep1 : extractAux acc d (l :: rest) =
            extractAux (acc ++ [(code, none)]) d rest := by
          simp only [extractAux, extractStep_serve hS]
        match rest with
        | [] =>
          rw [hstep1]
          simp [extractAux, extractSpec_serve_nil hk, hcode]
        | r :: rest' =>
          cases hkr : kindOf r with
          | reception =>
            obtain ⟨⟨rcode, rs⟩, hRr⟩ :=
              Option.isSome_iff_exists.mp (kindOf_reception_iff.mp hkr)
            have hSr : matchCode 'S' r = none :=
              @matchCode_disjoint 'R' 'S' r (by simp [hRr]) (by decide)
            have hrcode : codeOf 'R' r = rcode := by simp [codeOf, hRr]
            have hadj'' : adjOK false rest' = true := by simpa [adjOK, hkr] using hadjr
            have hstep2 : extractAux (acc ++ [(code, none)]) d (r :: rest') =
                extractAux (acc ++ [(code, some rcode)]) d rest' := by
              have hguard : ¬((acc ++ [(code, none)]) = [] ∨
                  truthyOpt (((acc ++ [(code, none)]).getLast?.getD ([], none)).2) = true) := by
                rw [List.getLast?_concat]
                simp [truthyOpt]
              have hattach := extractStep_attach (d := d) hSr hRr hguard
              rw [List.getLast?_concat] at hattach
              simp only [Option.getD_some, List.dropLast_concat] at hattach
              simp only [extractAux, hattach]
            rw [hstep1, hstep2, ih rest' (by simp at hlen; omega) hadj'' _ d]
            congr 1
            rw [extractSpec_serve_rec hk hkr]
            simp [hcode, hrcode]
          | serve =>
            have hner : kindOf r ≠ .reception := by simp [hkr]
            have hadj' : adjOK false (r :: rest') = true := by
              rw [adjOK_flag_irrel hner false true]
              exact hadjr
            rw [hstep1, ih (r :: rest') (by simpa using hlen) hadj' _ d]
            congr 1
            rw [extractSpec_serve_other hk (by simp [hkr])]
            simp [hcode]
          | other =>
            have hner : kindOf r ≠ .reception := by simp [hkr]
            have hadj' : adjOK false (r :: rest') = true := by
              rw [adjOK_flag_irrel hner false true]
              exact hadjr
            rw [hstep1, ih (r :: rest') (by simpa using hlen) hadj' _ d]
            congr 1
            rw [extractSpec_serve_other hk (by simp [hkr])]
            simp [hcode]

/-- On an adjacency-respecting file, extraction is `extractSpec` with no
diagnostics. -/
theorem extract_eq_spec {A : List Line} (hadj : adjOK false A = true) :
    get_verbose_service_codes A = extractSpec A := by
  unfold get_verbose_service_codes
  rw [extractAux_adjacent A.length A (Nat.le_refl _) hadj [] 0]
  simp

/-- On an adjacency-respecting file, the pattern-line sequence is the
shape of the extracted pairs. -/
theorem shape_eq_pairsShape :
    ∀ (n : Nat) (A : List Line), A.length ≤ n → adjOK false A = true →
      shape A = pairsShape (extractSpec A) := by
  intro n
  induction n with
  | zero =>
    intro A hlen _
    have hnil : A = [] := List.eq_nil_of_length_eq_zero (Nat.le_zero.mp hlen)
    subst hnil
    simp [shape, extractSpec, pairsShape]
  | succ n ih =>
    intro A hlen hadj
    match A with
    | [] => simp [shape, extractSpec, pairsShape]
    | l :: rest =>
      cases hk : kindOf l with
      | other =>
        have hadj' : adjOK false rest = true := by simpa [adjOK, hk] using hadj
        rw [show shape (l :: rest) = shape rest from by simp [shape, hk],
          extractSpec_cons_other (by simp [hk])]
        exact ih rest (by simpa using hlen) hadj'
      | reception => exact absurd hadj (by simp [adjOK, hk])
      | serve =>
        have hadjr : adjOK true rest = true := by simpa [adjOK, hk] using hadj
        rw [show shape (l :: rest) = .serve :: shape rest from by simp [shape, hk]]
        match rest with
        | [] => simp [shape, extractSpec_serve_nil hk, pairsShape]
        | r :: rest' =>
          cases hkr : kindOf r with
          | reception =>
            have hadj'' : adjOK false rest' = true := by simpa [adjOK, hkr] using hadjr
            rw [extractSpec_serve_rec hk hkr]
            rw [show shape (r :: rest') = .reception :: shape rest' from by
              simp [shape, hkr]]
            rw [ih rest' (by simp at hlen; omega) hadj'']
            simp [pairsShape]
          | serve =>
            have hner : kindOf r ≠ .reception := by simp [hkr]
            have hadj' : adjOK false (r :: rest') = true := by
              rw [adjOK_flag_irrel hner false true]
              exact hadjr
            rw [extractSpec_serve_other hk (by simp [hkr])]
            rw [ih (r :: rest') (by simpa using hlen) hadj']
            simp [pairsShape]
          | other =>
            have hner : kindOf r ≠ .reception := by simp [hkr]
            have hadj' : adjOK false (r :: rest') = true := by
              rw [adjOK_flag_irrel hner false true]
              exact hadjr
            rw [extractSpec_serve_other hk (by simp [hkr])]
            rw [ih (r :: rest') (by simpa using hlen) hadj']
            simp [pairsShape]

/-- The first pattern line of an adjacency-respecting file is not a
reception line. -/
theorem shape_head_not_reception :
    ∀ (B : List Line), adjOK false B = true → ∀ k ∈ (shape B).head?, k ≠ .reception := by
  intro B
  induction B with
  | nil => intro _ k hk; cases hk
  | cons b B' ih =>
    intro hadj k hk
    cases hkb : kindOf b with
    | other =>
      rw [show shape (b :: B') = shape B' from by simp [shape, hkb]] at hk
      exact ih (by simpa [adjOK, hkb] using hadj) k hk
    | reception => exact absurd hadj (by simp [adjOK, hkb])
    | serve =>
      rw [show shape (b :: B') = .serve :: shape B' from by simp [shape, hkb]] at hk
      simp only [List.head?_cons, Option.mem_def, Option.some.injEq] at hk
      rw [← hk]
      decide

/-- A skeleton whose pattern-line sequence matches the pair list's shape,
with adjacency and nonempty lines, is `Ready` for it. -/
theorem ready_of_shape :
    ∀ (n : Nat) (B : List Line), B.length ≤ n → ∀ (p : List CodePair),
      adjOK false B = true → shape B = pairsShape p →
      (∀ pr ∈ p, ∀ c, pr.2 = some c → c ≠ []) → (∀ b ∈ B, b ≠ []) → Ready p B := by
  intro n
  induction n with
  | zero =>
    intro B hlen p _ hshape _ _
    have hnil : B = [] := List.eq_nil_of_length_eq_zero (Nat.le_zero.mp hlen)
    subst hnil
    have hp : p = [] := pairsShape_eq_nil (by simpa [shape] using hshape.symm)
    subst hp
    exact .nil
  | succ n ih =>
    intro B hlen p hadj hshape hcr hne
    match B with
    | [] =>
      have hp : p = [] := pairsShape_eq_nil (by simpa [shape] using hshape.symm)
      subst hp
      exact .nil
    | b :: B' =>
      cases hk : kindOf b with
      | other =>
        refine .junk hk (hne b (List.mem_cons_self ..)) ?_
        refine ih B' (by simpa using hlen) p ?_ ?_ hcr ?_
        · simpa [adjOK, hk] using hadj
        · rw [show shape (b :: B') = shape B' from by simp [shape, hk]] at hshape
          exact hshape
        · exact fun x hx => hne x (List.mem_cons_of_mem _ hx)
      | reception => exact absurd hadj (by simp [adjOK, hk])
      | serve =>
        have hadjr : adjOK true B' = true := by simpa [adjOK, hk] using hadj
        rw [show shape (b :: B') = .serve :: shape B' from by simp [shape, hk]] at hshape
        match p, hshape with
        | [], hsh => exact absurd hsh.symm (by simp [pairsShape])
        | (cs, ro) :: p', hsh =>
          cases ro with
          | none =>
            have hsh2 : shape B' = pairsShape p' := by
              have := hsh
              simp only [pairsShape, List.map_cons, List.flatten_cons] at this ⊢
              exact (List.cons.injEq .. ▸ this).2
            have hheadB : ∀ m ∈ B'.head?, kindOf m ≠ .reception := by
              intro m hm
              cases B' with
              | nil => cases hm
              | cons x B'' =>
                simp only [List.head?_cons, Option.mem_def, Option.some.injEq] at hm
                subst hm
                intro hkm
                rw [show shape (x :: B'') = .reception :: shape B'' from by
                  simp [shape, hkm]] at hsh2
                exact absurd (pairsShape_head hsh2.symm) (by decide)
            have hadjB' : adjOK false B' = true := by
              cases B' with
              | nil => rfl
              | cons x B'' =>
                rw [adjOK_flag_irrel (hheadB x (by simp)) false true]
                exact hadjr
            exact .serveNone hk hheadB (ih B' (by simpa using hlen) p' hadjB' hsh2
              (fun pr hpr => hcr pr (List.mem_cons_of_mem _ hpr))
              (fun x hx => hne x (List.mem_cons_of_mem _ hx)))
          | some cr =>
            have hsh2 : shape B' = .reception :: pairsShape p' := by
              have := hsh
              simp only [pairsShape, List.map_cons, List.flatten_cons,
                List.cons_append] at this ⊢
              exact (List.cons.injEq .. ▸ this).2
            match B' with
            | [] => exact absurd hsh2 (by simp [shape])
            | r :: B'' =>
              cases hkr : kindOf r with
              | serve =>
                rw [show shape (r :: B'') = .serve :: shape B'' from by
                  simp [shape, hkr]] at hsh2
                exact absurd (List.cons.injEq .. ▸ hsh2).1 (by decide)
              | other =>
                have hadjB'' : adjOK false B'' = true := by
                  simpa [adjOK, hkr] using hadjr
                rw [show shape (r :: B'') = shape B'' from by simp [shape, hkr]] at hsh2
                have := shape_head_not_reception B'' hadjB'' .reception (by rw [hsh2]; rfl)
                exact absurd rfl this
              | reception =>
                have hadjB'' : adjOK false B'' = true := by
                  simpa [adjOK, hkr] using hadjr
                rw [show shape (r :: B'') = .reception :: shape B'' from by
                  simp [shape, hkr]] at hsh2
                have hsh3 : shape B'' = pairsShape p' := (List.cons.injEq .. ▸ hsh2).2
                have hcr0 : cr ≠ [] := hcr _ (List.mem_cons_self ..) cr rfl
                refine .serveRec hk hkr hcr0 ?_
                refine ih B'' (by simp at hlen; omega) p' hadjB'' hsh3
                  (fun pr hpr => hcr pr (List.mem_cons_of_mem _ hpr))
                  (fun x hx => hne x (List.mem_cons_of_mem _ (List.mem_cons_of_mem _ hx)))

theorem expectedOut_nil {p : List CodePair} : expectedOut p [] = [] := by
  cases p <;> simp [expectedOut]

theorem expectedOut_junk {p : List CodePair} {b : Line} {B : List Line}
    (hk : ¬kindOf b = .serve) :
    expectedOut p (b :: B) = rstrip b :: expectedOut p B := by
  cases p with
  | nil =>
    cases B with
    | nil => simp [expectedOut, hk]
    | cons x B' => simp [expectedOut, hk]
  | cons pr p' =>
    obtain ⟨cs, ro⟩ := pr
    cases B with
    | nil => cases ro <;> simp [expectedOut, hk]
    | cons x B' => cases ro <;> simp [expectedOut, hk]

theorem expectedOut_serveNone_nil {cs : Code} {p' : List CodePair} {b : Line}
    (hk : kindOf b = .serve) :
    expectedOut ((cs, none) :: p') [b] = [cs ++ sufCode (rstrip b)] := by
  simp [expectedOut, hk]

theorem expectedOut_serveNone_cons {cs : Code} {p' : List CodePair} {b m : Line}
    {B' : List Line} (hk : kindOf b = .serve) :
    expectedOut ((cs, none) :: p') (b :: m :: B') =
      (cs ++ sufCode (rstrip b)) :: expectedOut p' (m :: B') := by
  simp [expectedOut, hk]

theorem expectedOut_serveRec {cs cr : Code} {p' : List CodePair} {b r : Line}
    {B' : List Line} (hk : kindOf b = .serve) (hkr : kindOf r = .reception) :
    expectedOut ((cs, some cr) :: p') (b :: r :: B') =
      (cs ++ sufCode (rstrip b)) :: (cr ++ sufCode (rstrip r)) :: expectedOut p' B' := by
  simp [expectedOut, hk, hkr]

/-- Glue: a serve line followed by a line that gets no reception
substitution — one outer step of `merge` (with no line-number cutoff)
advances the cursor and prints the substituted serve line, re-examining
the follower; `current_line` is NOT advanced for the consumed follower,
which is why both sides carry the same counter. -/
theorem mergeOuter_glue_serve {codes : List CodePair} {i e c : Nat} {outs : List Line}
    {s m : Line} {B'' : List Line} {pr : CodePair} {ns : Line}
    (hS : (matchCode 'S' s).isSome) (hiE : ¬i = codes.length) (hpr : codes[i]? = some pr)
    (hsub : reSubCode 'S' pr.1 (rstrip s) = some ns) (hm : m ≠ [])
    (hnorec : matchCode 'R' (rstrip m) = none ∨ truthyOpt pr.2 = false) :
    mergeOuter codes none i e c outs (s :: m :: B'') =
      mergeOuter codes none (i + 1) e c (outs ++ [ns]) (m :: B'') := by
  have hp : ∀ c' : Nat, ¬(truthyNat (none : Option Nat) = true ∧
      c' + 1 < (none : Option Nat).getD 0) := by
    simp [truthyNat]
  rw [mergeOuter_scan (hp c), mergeOuter_scan (hp c),
    mergeInner_serve_step hS hiE hpr hsub hm hnorec]
  cases hmi : mergeInner codes (i + 1) e false (outs ++ [ns]) m B'' with
  | none => simp [hmi]
  | some r => simp [hmi, List.drop_succ_cons]

/-- Glue: a serve line followed by a reception line with a truthy
reception code — one outer step substitutes and prints both lines,
consumes one pair, and continues after the reception line. -/
theorem mergeOuter_glue_serveRec {codes : List CodePair} {i e c : Nat} {outs : List Line}
    {s m : Line} {B'' : List Line} {pr : CodePair} {ns nr : Line} {rp : Code × Line}
    (hS : (matchCode 'S' s).isSome) (hiE : ¬i = codes.length) (hpr : codes[i]? = some pr)
    (hsub : reSubCode 'S' pr.1 (rstrip s) = some ns) (hm : m ≠ [])
    (hrp : matchCode 'R' (rstrip m) = some rp) (htr : truthyOpt pr.2 = true)
    (hsubr : reSubCode 'R' (pr.2.getD []) (rstrip m) = some nr) :
    mergeOuter codes none i e c outs (s :: m :: B'') =
      mergeOuter codes none (i + 1) e (c + 1) (outs ++ [ns, nr]) B'' := by
  have hp : ¬(truthyNat (none : Option Nat) = true ∧
      c + 1 < (none : Option Nat).getD 0) := by
    simp [truthyNat]
  rw [mergeOuter_scan hp, mergeInner_serve_rec hS hiE hpr hsub hm hrp htr hsubr]
  simp

/-- Merging into a `Ready` skeleton with backslash-free codes: every pair
is consumed in order and the output is exactly `expectedOut`, with no
diagnostics. -/
theorem mergeOuter_ready {p : List CodePair} {B : List Line} (h : Ready p B) :
    ∀ (done : List CodePair) (e c : Nat) (outs : List Line),
      BackslashFree (done ++ p) →
      ∃ fi, mergeOuter (done ++ p) none done.length e c outs B =
        some (outs ++ expectedOut p B, e, fi) := by
  induction h with
  | nil =>
    intro done e c outs _
    exact ⟨done.length, by simp [mergeOuter_nil, expectedOut_nil]⟩
  | @junk b p B hk hne hr ih =>
    intro done e c outs hb
    rw [mergeOuter_junk hne (kindOf_other_iff.mp hk).1]
    obtain ⟨fi, hfi⟩ := ih done e (c + 1) (outs ++ [rstrip b]) hb
    refine ⟨fi, ?_⟩
    rw [hfi, expectedOut_junk (by simp [hk])]
    simp
  | @serveNone s cs p' B' hk hhead hr ih =>
    intro done e c outs hb
    have hS := kindOf_serve_iff.mp hk
    have hiE : ¬done.length = (done ++ (cs, none) :: p').length := by
      simp only [List.length_append, List.length_cons]
      omega
    have hpr : (done ++ (cs, none) :: p')[done.length]? = some (cs, none) := by
      rw [List.getElem?_append_right (Nat.le_refl _)]
      simp
    have hmem : ((cs, none) : CodePair) ∈ done ++ (cs, none) :: p' :=
      List.mem_append_right _ (List.mem_cons_self ..)
    have hbs : '\\' ∉ cs := (hb _ hmem).1
    obtain ⟨pp, hmatch⟩ := matchCode_rstrip (by decide) hS
    have hsub := reSubCode_of_no_backslash hmatch hbs
    match B', hhead, hr, ih with
    | [], _, _, _ =>
      have hp : ¬(truthyNat (none : Option Nat) = true ∧
          c + 1 < (none : Option Nat).getD 0) := by
        simp [truthyNat]
      rw [mergeOuter_scan hp, mergeInner_serve_eof hS hiE hpr hsub]
      refine ⟨done.length, ?_⟩
      simp [mergeOuter_nil, truthyLine, expectedOut_serveNone_nil hk]
    | m :: B'', hhead, hr, ih =>
      have hm : m ≠ [] := ready_lines_ne_nil hr m (List.mem_cons_self ..)
      have hmR : matchCode 'R' (rstrip m) = none := by
        have hkm : kindOf m ≠ .reception := hhead m (by simp)
        cases hx : matchCode 'R' (rstrip m) with
        | none => rfl
        | some y =>
          exact absurd (kindOf_reception_iff.mpr
            (matchCode_isSome_of_rstrip (by simp [hx]))) hkm
      rw [mergeOuter_glue_serve hS hiE hpr hsub hm (Or.inl hmR)]
      have hcast : done ++ (cs, none) :: p' = (done ++ [(cs, none)]) ++ p' := by simp
      rw [hcast, show done.length + 1 = (done ++ [(cs, none)]).length from by simp]
      obtain ⟨fi, hfi⟩ := ih (done ++ [(cs, none)]) e c
        (outs ++ [cs ++ sufCode (rstrip s)]) (by rw [← hcast]; exact hb)
      refine ⟨fi, ?_⟩
      rw [hfi, expectedOut_serveNone_cons hk]
      simp
  | @serveRec s r cs cr p' B' hk hkr hcr hr ih =>
    intro done e c outs hb
    have hS := kindOf_serve_iff.mp hk
    have hiE : ¬done.length = (done ++ (cs, some cr) :: p').length := by
      simp only [List.length_append, List.length_cons]
      omega
    have hpr : (done ++ (cs, some cr) :: p')[done.length]? = some (cs, some cr) := by
      rw [List.getElem?_append_right (Nat.le_refl _)]
      simp
    have hmem : ((cs, some cr) : CodePair) ∈ done ++ (cs, some cr) :: p' :=
      List.mem_append_right _ (List.mem_cons_self ..)
    have hbs : '\\' ∉ cs := (hb _ hmem).1
    obtain ⟨pp, hmatch⟩ := matchCode_rstrip (by decide) hS
    have hsub := reSubCode_of_no_backslash hmatch hbs
    have hm : r ≠ [] := ne_nil_of_kind_reception hkr
    obtain ⟨rp1, hmr⟩ := matchCode_rstrip (by decide) (kindOf_reception_iff.mp hkr)
    have hcrb : '\\' ∉ cr := (hb _ hmem).2 cr rfl
    have htr : truthyOpt (((cs, some cr) : CodePair).2) = true := by
      simp [truthyOpt, hcr]
    have hsubr : reSubCode 'R' ((((cs, some cr) : CodePair).2).getD []) (rstrip r) =
        some (cr ++ sufCode (rstrip r)) := by
      simp only [Option.getD_some]
      exact reSubCode_of_no_backslash hmr hcrb
    rw [mergeOuter_glue_serveRec hS hiE hpr hsub hm hmr htr hsubr]
    have hcast : done ++ (cs, some cr) :: p' = (done ++ [(cs, some cr)]) ++ p' := by simp
    rw [hcast, show done.length + 1 = (done ++ [(cs, some cr)]).length from by simp]
    obtain ⟨fi, hfi⟩ := ih (done ++ [(cs, some cr)]) e (c + 1)
      (outs ++ [cs ++ sufCode (rstrip s), cr ++ sufCode (rstrip r)])
      (by rw [← hcast]; exact hb)
    refine ⟨fi, ?_⟩
    rw [hfi, expectedOut_serveRec hk hkr]
    simp

/-- Re-extraction: running the extractor on the merge output of a `Ready`
skeleton recovers exactly the pair list that was merged in, with no
orphan-reception diagnostics. -/
theorem extractAux_expectedOut {p : List CodePair} {B : List Line} (h : Ready p B) :
    (∀ pr ∈ p, PairWf pr) →
    ∀ (acc : List CodePair) (d : Nat),
      extractAux acc d (expectedOut p B) = (acc ++ p, d) := by
  induction h with
  | nil =>
    intro _ acc d
    simp [expectedOut_nil, extractAux]
  | @junk b p B hk hne hr ih =>
    intro hwf acc d
    rw [expectedOut_junk (by simp [hk])]
    have hko : kindOf (rstrip b) = .other := by rw [kindOf_rstrip]; exact hk
    obtain ⟨hS, hR⟩ := kindOf_other_iff.mp hko
    show extractAux acc d (rstrip b :: expectedOut p B) = (acc ++ p, d)
    rw [show extractAux acc d (rstrip b :: expectedOut p B) =
          extractAux acc d (expectedOut p B) from by
      simp only [extractAux, extractStep_skip hS hR]]
    exact ih hwf acc d
  | @serveNone s cs p' B' hk hhead hr ih =>
    intro hwf acc d
    have hexp : expectedOut ((cs, none) :: p') (s :: B') =
        (cs ++ sufCode (rstrip s)) :: expectedOut p' B' := by
      cases B' with
      | nil => rw [expectedOut_serveNone_nil hk, expectedOut_nil]
      | cons m B'' => exact expectedOut_serveNone_cons hk
    have hwfh : PairWf (cs, none) := hwf _ (List.mem_cons_self ..)
    have hmS : matchCode 'S' (cs ++ sufCode (rstrip s)) = some (cs, sufCode (rstrip s)) :=
      matchCode_code_append hwfh.1 (sufCode_cases _)
    rw [hexp,
      show extractAux acc d ((cs ++ sufCode (rstrip s)) :: expectedOut p' B') =
          extractAux (acc ++ [(cs, none)]) d (expectedOut p' B') from by
        simp only [extractAux, extractStep_serve hmS],
      ih (fun pr hpr => hwf pr (List.mem_cons_of_mem _ hpr)) (acc ++ [(cs, none)]) d]
    simp
  | @serveRec s r cs cr p' B' hk hkr hcr hr ih =>
    intro hwf acc d
    have hwfh : PairWf (cs, some cr) := hwf _ (List.mem_cons_self ..)
    have hmS : matchCode 'S' (cs ++ sufCode (rstrip s)) = some (cs, sufCode (rstrip s)) :=
      matchCode_code_append hwfh.1 (sufCode_cases _)
    have hmR : matchCode 'R' (cr ++ sufCode (rstrip r)) = some (cr, sufCode (rstrip r)) :=
      matchCode_code_append (hwfh.2 cr rfl) (sufCode_cases _)
    have hmS' : matchCode 'S' (cr ++ sufCode (rstrip r)) = none :=
      @matchCode_disjoint 'R' 'S' _ (by simp [hmR]) (by decide)
    have hguard : ¬((acc ++ [(cs, none)]) = [] ∨
        truthyOpt (((acc ++ [(cs, none)]).getLast?.getD ([], none)).2) = true) := by
      simp [List.getLast?_concat, truthyOpt]
    rw [expectedOut_serveRec hk hkr,
      show extractAux acc d ((cs ++ sufCode (rstrip s)) ::
            (cr ++ sufCode (rstrip r)) :: expectedOut p' B') =
          extractAux (acc ++ [(cs, some cr)]) d (expectedOut p' B') from by
        simp only [extractAux, extractStep_serve hmS,
          extractStep_attach hmS' hmR hguard, List.getLast?_concat,
          Option.getD_some, List.dropLast_concat],
      ih (fun pr hpr => hwf pr (List.mem_cons_of_mem _ hpr)) (acc ++ [(cs, some cr)]) d]
    simp

/-- C9: the round trip holds only under extra hypotheses the claim omits:
the annotated file's reception lines must each immediately follow their
serve line (extraction attaches receptions non-adjacently, merge only
substitutes adjacently), the skeleton's likewise, the codes must be
backslash-free replacement templates, and the skeleton's lines nonempty.
Under those, merging the extracted pairs into a skeleton with the same
pattern-line sequence completes with no diagnostics and re-extracting
the output reproduces the annotated file's pair list exactly. -/
theorem C9_round_trip {A B : List Line}
    (hadjA : adjOK false A = true) (hadjB : adjOK false B = true)
    (hsh : shape A = shape B)
    (hb : BackslashFree (get_verbose_service_codes A))
    (hne : ∀ b ∈ B, b ≠ []) :
    ∃ outs fi, merge (get_verbose_service_codes A) B none = some (outs, 0, fi) ∧
      get_verbose_service_codes outs = get_verbose_service_codes A := by
  have hp := extract_eq_spec hadjA
  have hwf : ∀ pr ∈ get_verbose_service_codes A, PairWf pr :=
    extractAux_wf A [] 0 (by simp)
  have hcr : ∀ pr ∈ get_verbose_service_codes A, ∀ c, pr.2 = some c → c ≠ [] := by
    intro pr hpr c hc
    obtain ⟨c0, c1, c2, rest, hl, -, -, -, -, -⟩ :=
      matchCode_some_elim ((hwf pr hpr).2 c hc)
    subst hl
    simp
  have hshape : shape B = pairsShape (get_verbose_service_codes A) := by
    rw [← hsh, hp]
    exact shape_eq_pairsShape A.length A (Nat.le_refl _) hadjA
  have hready : Ready (get_verbose_service_codes A) B :=
    ready_of_shape B.length B (Nat.le_refl _) _ hadjB hshape hcr hne
  obtain ⟨fi, hfi⟩ :=
    mergeOuter_ready hready [] 0 0 [] (by simpa using hb)
  refine ⟨expectedOut (get_verbose_service_codes A) B, fi, hfi, ?_⟩
  show (extractAux [] 0 (expectedOut (get_verbose_service_codes A) B)).1 =
    get_verbose_service_codes A
  rw [extractAux_expectedOut hready hwf [] 0]
  simp

/-- C9 as literally claimed is false: an annotated file whose reception
line does NOT immediately follow its serve line still extracts an
attached pair, but the merge only substitutes an immediately following
reception line, so the skeleton's reception line passes through
unsubstituted and the output's codes differ from the annotated file's —
even though the skeleton's serve/reception pattern lines appear in the
same order and count as the annotated file's. -/
theorem C9_counterexample :
    shape [['a','0','1','S','X',';','\n'], ['z','z','\n'], ['*','0','2','R','Y',';','\n']] =
      shape [['a','0','3','S','q',';','\n'], ['w','w','\n'], ['*','0','4','R','w',';','\n']] ∧
    merge (get_verbose_service_codes
        [['a','0','1','S','X',';','\n'], ['z','z','\n'], ['*','0','2','R','Y',';','\n']])
      [['a','0','3','S','q',';','\n'], ['w','w','\n'], ['*','0','4','R','w',';','\n']] none =
      some ([['a','0','1','S','X',';'], ['w','w'], ['*','0','4','R','w',';']], 0, 1) ∧
    get_verbose_service_codes [['a','0','1','S','X',';'], ['w','w'], ['*','0','4','R','w',';']] ≠
      get_verbose_service_codes
        [['a','0','1','S','X',';','\n'], ['z','z','\n'], ['*','0','2','R','Y',';','\n']] := by
  refine ⟨by decide, ?_, by decide⟩
  simp [merge, mergeOuter, mergeInner, matchCode, rstrip, reSubCode, expandTemplate,
    expandTemplateF, truthyNat, truthyLine, truthyOpt, pyIsSpace, isAsciiDigit, isOctDigit,
    get_verbose_service_codes, extractAux, extractStep]

theorem C9_witness :
    ∃ outs fi,
      merge (get_verbose_service_codes
          [['a','0','1','S','X',';','\n'], ['*','0','2','R','Y',';','\n'], ['z','z','\n']])
        [['a','0','3','S','q',';','\n'], ['*','0','4','R','w',';','\n'], ['k','k','\n']] none =
        some (outs, 0, fi) ∧
      get_verbose_service_codes outs = get_verbose_service_codes
        [['a','0','1','S','X',';','\n'], ['*','0','2','R','Y',';','\n'], ['z','z','\n']] :=
  C9_round_trip (by decide) (by decide) (by decide)
    (by unfold BackslashFree; decide) (by decide)

end DvwMerger
